import Mathlib

/-!
Verification of the structural runtime type-checker of this repository.

The repository contains two near-duplicate checker implementations:
* src/type_validation.py   (class TypeChecker, result class Result) — embedded
  below in namespace TV;
* src/tests/typechecker.py (class TypeChecker, result class
  _TypeCheckingResult) — embedded below in namespace TC.

Modelling conventions:
* JSON runtime values are the inductive JVal; Python floats are modelled as
  rationals (only the runtime kind of a value matters to the checker, never
  float arithmetic).
* Python dicts are insertion-ordered association lists; Python set values
  (key-set differences) are modelled as lists and the theorems state their
  contents only up to membership, since Python set iteration order is
  unspecified.
* Error-message strings built with f-strings are modelled as an inductive
  Msg carrying the interpolated data.
* A raised Python exception is modelled as the .error case of Except; a
  normally returned result is .ok.
-/

set_option linter.unusedVariables false
set_option linter.unusedTactic false
set_option linter.unnecessarySimpa false

/-- Primitive kinds handled by the checkers: int, float, str, bool. -/
inductive PKind where
  | int
  | float
  | str
  | bool
deriving DecidableEq, Repr

/-- A runtime JSON-like Python value, as fed to the checkers. -/
inductive JVal where
  | null
  | bool (b : Bool)
  | int (n : Int)
  | float (q : Rat)
  | str (s : String)
  | list (xs : List JVal)
  | dict (m : List (String × JVal))

/-- The closed set of type descriptions the dispatcher in
TypeChecker.match / TypeChecker.typecheck recognizes:
primitives, a raw field-mapping dict, List[t], Union[...], Page[t],
CursorPage[t], and a TypedDict.  A TypedDict is carried here together with
the required/optional field partition that the source extracts from the
class and its parent _T in spotipy.json_types; the constructor field
name is the class __name__.  The unknown constructor stands for any type
object outside this closed set. -/
inductive Ty where
  | prim (k : PKind)
  | rawdict (fields : List (String × Ty))
  | listOf (elem : Ty)
  | union (alts : List Ty)
  | page (item : Ty)
  | cursorPage (item : Ty)
  | typeddict (name : String) (required : List (String × Ty)) (optional : List (String × Ty))
  | unknown

/-- The checkers' error message strings, with the interpolated data kept
as structured payloads. -/
inductive Msg where
  /-- Models the message: value, expected type, actual type. -/
  | primitiveMismatch (value : JVal) (expected : PKind)
  /-- "The value is not a list" (only in src/tests/typechecker.py) -/
  | notAList
  /-- Models the count message: failing elements out of total elements. -/
  | elementsDontMatch (failed total : Nat)
  /-- "None of the union types matched" -/
  | noneOfUnionMatched
  /-- Models the not-a-dict message with the label and the value. -/
  | notADict (label : String) (value : JVal)
  /-- Models the unrecognized-keys message with the offending key set. -/
  | unrecognizedKeys (keys : List String)
  /-- Models the missing-required-key message of match_page. -/
  | missingRequiredKey (keys : List String)
  /-- Models the missing-required-keys message of match_dict. -/
  | missingRequiredKeys (keys : List String)

/-- The Python exceptions the checkers can raise. -/
inductive PyErr where
  /-- raise ValueError() in the dispatcher's final else branch -/
  | valueError
  /-- iterating a non-iterable value (match_list in src/type_validation.py) -/
  | typeError
  /-- calling .keys() on a non-dict value (match_typeddict) -/
  | attributeError
  /-- subscripting a dict with an absent key -/
  | keyError
deriving DecidableEq, Repr

/-- The result tree built by both Result and _TypeCheckingResult (the two
classes are textually identical up to the class name).  children is None,
a single nested result, or a dict of named sub-results; has_errors is the
flag the constructor stores. -/
inductive Result where
  | mk (label : String) (error_messages : List Msg)
       (children : Option (Result ⊕ List (String × Result)))
       (has_errors : Bool)

def Result.label : Result → String
  | .mk l _ _ _ => l

def Result.error_messages : Result → List Msg
  | .mk _ e _ _ => e

def Result.children : Result → Option (Result ⊕ List (String × Result))
  | .mk _ _ c _ => c

def Result.has_errors : Result → Bool
  | .mk _ _ _ h => h

/-- self.children = children or None: an empty children dict is falsy in
Python and is normalized to None; a Result instance or a non-empty dict is
kept. -/
def childNorm : Option (Result ⊕ List (String × Result)) →
    Option (Result ⊕ List (String × Result))
  | some (.inr []) => none
  | c => c

/-- The has_errors computation of Result.__init__: errors present, or a
single nested child with errors, or some child of the dict with errors. -/
def computeHasErrors (errors : List Msg)
    (children : Option (Result ⊕ List (String × Result))) : Bool :=
  if !errors.isEmpty then true
  else match children with
    | some (.inl r) => r.has_errors
    | some (.inr m) => m.any (fun p => p.2.has_errors)
    | none => false

/-- Result.__init__ / _TypeCheckingResult.__init__: store the label, the
error messages, the normalized children, and the derived has_errors flag. -/
def mkResult (label : String) (errors : List Msg)
    (children : Option (Result ⊕ List (String × Result))) : Result :=
  let c := childNorm children
  .mk label errors c (computeHasErrors errors c)

/-- Keys of a Python dict, in insertion order. -/
def dictKeys (m : List (String × JVal)) : List String :=
  m.map Prod.fst

/-- Python dict subscripting / containment: first entry with the key. -/
def dictGet (m : List (String × JVal)) (k : String) : Option JVal :=
  match m with
  | [] => none
  | (k2, v) :: rest => if k2 = k then some v else dictGet rest k

/-- Set difference a - b of two key collections, as the sub-list of a whose
keys are not in b (contents meaningful up to membership only, since Python
sets are unordered). -/
def keysNotIn (a b : List String) : List String :=
  a.filter (fun k => !b.contains k)

/-- Python dict assignment d[k] = v: replace the value in place if the key
is present, otherwise append the pair. -/
def pyInsert (l : List (String × Result)) (k : String) (r : Result) :
    List (String × Result) :=
  match l with
  | [] => [(k, r)]
  | (k2, r2) :: rest =>
    if k2 = k then (k, r) :: rest else (k2, r2) :: pyInsert rest k r

/-- Python isinstance(value, type_) for the four primitive type objects.
A Python bool is an instance of int (bool subclasses int); an int is not an
instance of float. -/
def isinstanceOf : JVal → PKind → Bool
  | .int _, .int => true
  | .bool _, .int => true
  | .bool _, .bool => true
  | .float _, .float => true
  | .str _, .str => true
  | _, _ => false

/-- The exact runtime kind of a value: type(v) for primitive-kinded values,
none for values whose runtime type is not one of the four primitive type
objects.  type(True) is bool, not int. -/
def runtimeKind : JVal → Option PKind
  | .int _ => some .int
  | .bool _ => some .bool
  | .float _ => some .float
  | .str _ => some .str
  | _ => none

/-- Iterating a Python value: lists yield their elements, strings their
characters (as one-character strings), dicts their keys; other JSON values
are not iterable (TypeError).  len agrees with the element count. -/
def pyIterElems : JVal → Option (List JVal)
  | .list xs => some xs
  | .str s => some (s.toList.map (fun c => .str (String.mk [c])))
  | .dict m => some (m.map (fun p => .str p.1))
  | _ => none

/-- tp.__name__, as used for the keys of a union node's children dict. -/
def tyName : Ty → String
  | .prim .int => "int"
  | .prim .float => "float"
  | .prim .str => "str"
  | .prim .bool => "bool"
  | .rawdict _ => "dict"
  | .listOf _ => "list"
  | .union _ => "Union"
  | .page _ => "Page"
  | .cursorPage _ => "CursorPage"
  | .typeddict n _ _ => n
  | .unknown => "object"

/-- The fixed field set of a Page, as hard-coded in match_page. -/
def pageFields : List String :=
  ["href", "items", "limit", "next", "offset", "previous", "total"]

/-- The fixed field set of a CursorPage, as hard-coded in match_page. -/
def cursorFields : List String :=
  ["cursors", "href", "items", "limit", "next", "total"]

/-- The field-set comparison errors accumulated by match_page: an
unrecognized-keys message when the value has keys outside the fixed field
set, then a missing-required-key message when fixed fields are absent. -/
def pageErrors (m : List (String × JVal)) (fields : List String) : List Msg :=
  (if (keysNotIn (dictKeys m) fields).isEmpty then []
   else [Msg.unrecognizedKeys (keysNotIn (dictKeys m) fields)])
  ++ (if (keysNotIn fields (dictKeys m)).isEmpty then []
      else [Msg.missingRequiredKey (keysNotIn fields (dictKeys m))])

/- The checker of src/type_validation.py (class TypeChecker). -/
namespace TV

/-- TypeChecker.match_primitive of src/type_validation.py.  When isinstance
fails, the source constructs an error Result but lacks a return statement,
so the constructed value is discarded and the final return Result("primitive")
always yields a passing result. -/
def match_primitive (v : JVal) (k : PKind) : Result :=
  mkResult "primitive" [] none

mutual

/-- TypeChecker.match: dispatch on the type description.  The raw-dict
branch additionally requires the value to be a dict; a raw dict type with a
non-dict value falls through every branch to the final raise ValueError().
A TypedDict with no declared keys at all is falsy for
typing_inspect.typed_dict_keys and also falls through to the ValueError.
A TypedDict branch reached with a non-dict value raises AttributeError at
value.keys() inside match_typeddict. -/
def matchv (v : JVal) : Ty → Except PyErr Result
  | .prim k => .ok (match_primitive v k)
  | .rawdict fields =>
    match v with
    | .dict m => match_dict m fields false
    | _ => .error .valueError
  | .listOf e => match_list v e
  | .union alts => match_union v alts []
  | .page item => match_page v item true
  | .cursorPage item => match_page v item false
  | .typeddict name req opt =>
    if (req ++ opt).isEmpty then .error .valueError
    else
      match v with
      | .dict m => match_typeddict m name req opt
      | _ => .error .attributeError
  | .unknown => .error .valueError
termination_by t => (sizeOf t, 0, 0)

/-- TypeChecker.match_list: iterate the value (raising TypeError if it is
not iterable), match every element, and if any element failed report how
many of how much with the first failing match as the single child. -/
def match_list (v : JVal) (e : Ty) : Except PyErr Result :=
  match pyIterElems v with
  | none => .error .typeError
  | some elems =>
    match matchElems e elems with
    | .error er => .error er
    | .ok rs =>
      match rs.filter (fun r => r.has_errors) with
      | [] => .ok (mkResult "list" [] none)
      | first :: restFail =>
        .ok (mkResult "list"
          [.elementsDontMatch (restFail.length + 1) elems.length]
          (some (.inr [("first error", first)])))
termination_by (sizeOf e, 2, 0)

/-- The element-wise list comprehension of match_list; the first raised
exception propagates. -/
def matchElems (e : Ty) : List JVal → Except PyErr (List Result)
  | [] => .ok []
  | x :: xs =>
    match matchv x e with
    | .error er => .error er
    | .ok r =>
      match matchElems e xs with
      | .error er => .error er
      | .ok rs => .ok (r :: rs)
termination_by xs => (sizeOf e, 1, xs.length)

/-- TypeChecker.match_union: try the alternatives in order, returning a
plain passing result at the first success; failing alternatives are
recorded in the children dict under tp.__name__; when none matched, report
it with all the failing children. -/
def match_union (v : JVal) (alts : List Ty) (children : List (String × Result)) :
    Except PyErr Result :=
  match alts with
  | [] => .ok (mkResult "union" [.noneOfUnionMatched] (some (.inr children)))
  | t :: rest =>
    match matchv v t with
    | .error er => .error er
    | .ok m =>
      if m.has_errors then match_union v rest (pyInsert children (tyName t) m)
      else .ok (mkResult "union" [] none)
termination_by (sizeOf alts, 1, 0)

/-- TypeChecker.match_page: non-dict values fail with a single message;
then the key set is compared with the fixed field set (unrecognized keys
first, then missing keys, both possible); any field-set error returns
without descending; otherwise the items field is matched as a list and
becomes the single nested child. -/
def match_page (v : JVal) (item : Ty) (isPage : Bool) : Except PyErr Result :=
  let label := if isPage then "page" else "cursor_page"
  let fields := if isPage then pageFields else cursorFields
  match v with
  | .dict m =>
    let errors := pageErrors m fields
    if errors.isEmpty then
      match dictGet m "items" with
      | none => .error .keyError
      | some items =>
        match match_list items item with
        | .error er => .error er
        | .ok nested => .ok (mkResult label [] (some (.inl nested)))
    else .ok (mkResult label (pageErrors m fields) none)
  | _ => .ok (mkResult label [.notADict label v] none)
termination_by (sizeOf item, 3, 0)

/-- TypeChecker.match_typeddict: unknown keys (outside required+optional)
produce an error message; the required fields are matched as a dict under
the child key "required", and, when the optional mapping is non-empty, the
optional fields under "optional". -/
def match_typeddict (m : List (String × JVal)) (name : String)
    (req opt : List (String × Ty)) : Except PyErr Result :=
  let allKeys := (req ++ opt).map Prod.fst
  let extra := keysNotIn (dictKeys m) allKeys
  let errors := if extra.isEmpty then [] else [Msg.unrecognizedKeys extra]
  match match_dict m req false with
  | .error er => .error er
  | .ok reqR =>
    if opt.isEmpty then
      .ok (mkResult name errors (some (.inr [("required", reqR)])))
    else
      match match_dict m opt true with
      | .error er => .error er
      | .ok optR =>
        .ok (mkResult name errors
          (some (.inr [("required", reqR), ("optional", optR)])))
termination_by (sizeOf req + sizeOf opt, 2, 0)
decreasing_by
  all_goals
    (have hreq : 0 < sizeOf req := by cases req <;> simp_arith
     have hopt : 0 < sizeOf opt := by cases opt <;> simp_arith
     simp_wf
     apply Prod.Lex.left
     omega)

/-- TypeChecker.match_dict: when not optional, fields declared but absent
from the value produce one missing-required-keys error; each field present
in both the value and the declared mapping is matched recursively and only
failing sub-results are retained as children.  (The source iterates the
set intersection of the key views, whose order is unspecified; the model
iterates in declared-field order.) -/
def match_dict (m : List (String × JVal)) (fields : List (String × Ty))
    (optional : Bool) : Except PyErr Result :=
  let missing := keysNotIn (fields.map Prod.fst) (dictKeys m)
  let errors :=
    if !optional && !missing.isEmpty then [Msg.missingRequiredKeys missing] else []
  match matchFields m fields with
  | .error er => .error er
  | .ok children => .ok (mkResult "dict" errors (some (.inr children)))
termination_by (sizeOf fields, 1, 0)

/-- The recursive per-field loop of match_dict: skip absent fields, match
present ones, keep only failing matches. -/
def matchFields (m : List (String × JVal)) :
    List (String × Ty) → Except PyErr (List (String × Result))
  | [] => .ok []
  | (f, ft) :: rest =>
    match dictGet m f with
    | none => matchFields m rest
    | some fv =>
      match matchv fv ft with
      | .error er => .error er
      | .ok r =>
        match matchFields m rest with
        | .error er => .error er
        | .ok others => .ok (if r.has_errors then (f, r) :: others else others)
termination_by fs => (sizeOf fs, 0, 0)

end

end TV

/- The checker of src/tests/typechecker.py (class TypeChecker, results of
class _TypeCheckingResult).  It differs from the one in
src/type_validation.py in exactly two places: _match_primitive returns the
error result (the return statement is present), and _match_list first
checks isinstance(list_, list) and reports "The value is not a list"
instead of iterating arbitrary iterables.  _match_typeddict additionally
handles TypedDicts without a parent _T via __total__; the model covers the
parent-based extraction, which behaves identically in both files. -/
namespace TC

/-- TypeChecker._match_primitive of src/tests/typechecker.py: an isinstance
check whose failure is reported in the result. -/
def match_primitive (v : JVal) (k : PKind) : Result :=
  if !isinstanceOf v k then
    mkResult "primitive" [.primitiveMismatch v k] none
  else mkResult "primitive" [] none

mutual

/-- TypeChecker.typecheck: same dispatcher as TypeChecker.match of
src/type_validation.py. -/
def typecheck (v : JVal) : Ty → Except PyErr Result
  | .prim k => .ok (match_primitive v k)
  | .rawdict fields =>
    match v with
    | .dict m => match_dict m fields false
    | _ => .error .valueError
  | .listOf e => match_list v e
  | .union alts => match_union v alts []
  | .page item => match_page v item true
  | .cursorPage item => match_page v item false
  | .typeddict name req opt =>
    if (req ++ opt).isEmpty then .error .valueError
    else
      match v with
      | .dict m => match_typeddict m name req opt
      | _ => .error .attributeError
  | .unknown => .error .valueError
termination_by t => (sizeOf t, 0, 0)

/-- TypeChecker._match_list: values that are not lists get a single
"The value is not a list" error; otherwise as in src/type_validation.py. -/
def match_list (v : JVal) (e : Ty) : Except PyErr Result :=
  match v with
  | .list xs =>
    match matchElems e xs with
    | .error er => .error er
    | .ok rs =>
      match rs.filter (fun r => r.has_errors) with
      | [] => .ok (mkResult "list" [] none)
      | first :: restFail =>
        .ok (mkResult "list"
          [.elementsDontMatch (restFail.length + 1) xs.length]
          (some (.inr [("first error", first)])))
  | _ => .ok (mkResult "list" [.notAList] none)
termination_by (sizeOf e, 2, 0)

/-- The element-wise list comprehension of _match_list. -/
def matchElems (e : Ty) : List JVal → Except PyErr (List Result)
  | [] => .ok []
  | x :: xs =>
    match typecheck x e with
    | .error er => .error er
    | .ok r =>
      match matchElems e xs with
      | .error er => .error er
      | .ok rs => .ok (r :: rs)
termination_by xs => (sizeOf e, 1, xs.length)

/-- TypeChecker._match_union, identical to match_union of
src/type_validation.py. -/
def match_union (v : JVal) (alts : List Ty) (children : List (String × Result)) :
    Except PyErr Result :=
  match alts with
  | [] => .ok (mkResult "union" [.noneOfUnionMatched] (some (.inr children)))
  | t :: rest =>
    match typecheck v t with
    | .error er => .error er
    | .ok m =>
      if m.has_errors then match_union v rest (pyInsert children (tyName t) m)
      else .ok (mkResult "union" [] none)
termination_by (sizeOf alts, 1, 0)

/-- TypeChecker._match_page, identical to match_page of
src/type_validation.py. -/
def match_page (v : JVal) (item : Ty) (isPage : Bool) : Except PyErr Result :=
  let label := if isPage then "page" else "cursor_page"
  let fields := if isPage then pageFields else cursorFields
  match v with
  | .dict m =>
    let errors := pageErrors m fields
    if errors.isEmpty then
      match dictGet m "items" with
      | none => .error .keyError
      | some items =>
        match match_list items item with
        | .error er => .error er
        | .ok nested => .ok (mkResult label [] (some (.inl nested)))
    else .ok (mkResult label (pageErrors m fields) none)
  | _ => .ok (mkResult label [.notADict label v] none)
termination_by (sizeOf item, 3, 0)

/-- TypeChecker._match_typeddict (parent-class case), behaving as
match_typeddict of src/type_validation.py. -/
def match_typeddict (m : List (String × JVal)) (name : String)
    (req opt : List (String × Ty)) : Except PyErr Result :=
  let allKeys := (req ++ opt).map Prod.fst
  let extra := keysNotIn (dictKeys m) allKeys
  let errors := if extra.isEmpty then [] else [Msg.unrecognizedKeys extra]
  match match_dict m req false with
  | .error er => .error er
  | .ok reqR =>
    if opt.isEmpty then
      .ok (mkResult name errors (some (.inr [("required", reqR)])))
    else
      match match_dict m opt true with
      | .error er => .error er
      | .ok optR =>
        .ok (mkResult name errors
          (some (.inr [("required", reqR), ("optional", optR)])))
termination_by (sizeOf req + sizeOf opt, 2, 0)
decreasing_by
  all_goals
    (have hreq : 0 < sizeOf req := by cases req <;> simp_arith
     have hopt : 0 < sizeOf opt := by cases opt <;> simp_arith
     simp_wf
     apply Prod.Lex.left
     omega)

/-- TypeChecker._match_dict, identical to match_dict of
src/type_validation.py. -/
def match_dict (m : List (String × JVal)) (fields : List (String × Ty))
    (optional : Bool) : Except PyErr Result :=
  let missing := keysNotIn (fields.map Prod.fst) (dictKeys m)
  let errors :=
    if !optional && !missing.isEmpty then [Msg.missingRequiredKeys missing] else []
  match matchFields m fields with
  | .error er => .error er
  | .ok children => .ok (mkResult "dict" errors (some (.inr children)))
termination_by (sizeOf fields, 1, 0)

/-- The recursive per-field loop of _match_dict. -/
def matchFields (m : List (String × JVal)) :
    List (String × Ty) → Except PyErr (List (String × Result))
  | [] => .ok []
  | (f, ft) :: rest =>
    match dictGet m f with
    | none => matchFields m rest
    | some fv =>
      match typecheck fv ft with
      | .error er => .error er
      | .ok r =>
        match matchFields m rest with
        | .error er => .error er
        | .ok others => .ok (if r.has_errors then (f, r) :: others else others)
termination_by fs => (sizeOf fs, 0, 0)

end

end TC

/- Shape compatibility: a sufficient condition, following the checker of
src/type_validation.py, for the value to offer the container operations the
checker performs at every point it descends, so that no exception is
raised: mappings wherever a record or raw field-mapping dereferences keys,
iterables wherever a list iterates, at every recursion level. -/
mutual

def fits (v : JVal) : Ty → Bool
  | .prim _ => true
  | .rawdict fields =>
    match v with
    | .dict m => fitsFields m fields
    | _ => false
  | .listOf e =>
    match pyIterElems v with
    | none => false
    | some elems => fitsElems e elems
  | .union alts => fitsAll v alts
  | .page item => fitsPage v item true
  | .cursorPage item => fitsPage v item false
  | .typeddict name req opt =>
    if (req ++ opt).isEmpty then false
    else
      match v with
      | .dict m => fitsFields m req && fitsFields m opt
      | _ => false
  | .unknown => false
termination_by t => (sizeOf t, 0, 0)

def fitsElems (e : Ty) : List JVal → Bool
  | [] => true
  | x :: xs => fits x e && fitsElems e xs
termination_by xs => (sizeOf e, 1, xs.length)

def fitsAll (v : JVal) : List Ty → Bool
  | [] => true
  | a :: rest => fits v a && fitsAll v rest
termination_by alts => (sizeOf alts, 1, 0)

def fitsPage (v : JVal) (item : Ty) (isPage : Bool) : Bool :=
  let fields := if isPage then pageFields else cursorFields
  match v with
  | .dict m =>
    if (pageErrors m fields).isEmpty then
      match dictGet m "items" with
      | none => false
      | some items =>
        match pyIterElems items with
        | none => false
        | some elems => fitsElems item elems
    else true
  | _ => true
termination_by (sizeOf item, 3, 0)

def fitsFields (m : List (String × JVal)) : List (String × Ty) → Bool
  | [] => true
  | (f, ft) :: rest =>
    (match dictGet m f with
     | none => true
     | some fv => fits fv ft) && fitsFields m rest
termination_by fs => (sizeOf fs, 0, 0)

end

/-! Invariants of the result trees. -/

@[simp] lemma mkResult_label (l : String) (e : List Msg)
    (c : Option (Result ⊕ List (String × Result))) :
    (mkResult l e c).label = l := rfl

@[simp] lemma mkResult_error_messages (l : String) (e : List Msg)
    (c : Option (Result ⊕ List (String × Result))) :
    (mkResult l e c).error_messages = e := rfl

@[simp] lemma mkResult_children (l : String) (e : List Msg)
    (c : Option (Result ⊕ List (String × Result))) :
    (mkResult l e c).children = childNorm c := rfl

@[simp] lemma mkResult_has_errors (l : String) (e : List Msg)
    (c : Option (Result ⊕ List (String × Result))) :
    (mkResult l e c).has_errors = computeHasErrors e (childNorm c) := rfl

/-- The immediate sub-results stored in a node, whatever shape children has. -/
def resultChildren : Result → List Result
  | .mk _ _ none _ => []
  | .mk _ _ (some (.inl r)) _ => [r]
  | .mk _ _ (some (.inr cs)) _ => cs.map Prod.snd

/-- The immediate sub-results of a children argument before normalization. -/
def topChildren : Option (Result ⊕ List (String × Result)) → List Result
  | none => []
  | some (.inl r) => [r]
  | some (.inr cs) => cs.map Prod.snd

/-- p holds at this node and, recursively, at every node of the tree. -/
inductive AllNodes (p : Result → Prop) : Result → Prop where
  | node : ∀ r, p r → (∀ c ∈ resultChildren r, AllNodes p c) → AllNodes p r

lemma AllNodes.self {p : Result → Prop} {r : Result} (h : AllNodes p r) : p r := by
  cases h; assumption

lemma AllNodes.child {p : Result → Prop} {r c : Result} (h : AllNodes p r)
    (hc : c ∈ resultChildren r) : AllNodes p c := by
  cases h with
  | node _ _ hcs => exact hcs c hc

lemma AllNodes.mono {p q : Result → Prop} (hpq : ∀ r, p r → q r) {r : Result}
    (h : AllNodes p r) : AllNodes q r := by
  induction h with
  | node r hp hcs ih => exact .node r (hpq r hp) ih

/-- The node-local has_errors consistency stated by the spec: the stored
flag equals the derivation from the node's own messages and the stored
flags of its children. -/
def nodeConsistent (r : Result) : Prop :=
  r.has_errors = computeHasErrors r.error_messages r.children

/-- The node-local normalization invariant: children is never an empty dict. -/
def nodeNoEmptyMap (r : Result) : Prop :=
  r.children ≠ some (.inr [])

def nodeOK (r : Result) : Prop := nodeConsistent r ∧ nodeNoEmptyMap r

lemma nodeOK_mkResult (l : String) (e : List Msg)
    (c : Option (Result ⊕ List (String × Result))) : nodeOK (mkResult l e c) := by
  refine ⟨rfl, ?_⟩
  unfold nodeNoEmptyMap
  rw [mkResult_children]
  match c with
  | none => simp [childNorm]
  | some (.inl r) => simp [childNorm]
  | some (.inr []) => simp [childNorm]
  | some (.inr (x :: xs)) => simp [childNorm]

lemma resultChildren_mkResult_sub (l : String) (e : List Msg)
    (c : Option (Result ⊕ List (String × Result))) :
    ∀ x ∈ resultChildren (mkResult l e c), x ∈ topChildren c := by
  intro x hx
  match c with
  | none => simpa [mkResult, childNorm, resultChildren] using hx
  | some (.inl r) => simpa [mkResult, childNorm, resultChildren, topChildren] using hx
  | some (.inr []) => simpa [mkResult, childNorm, resultChildren] using hx
  | some (.inr (y :: ys)) =>
    simpa [mkResult, childNorm, resultChildren, topChildren] using hx

lemma allNodes_mkResult {l : String} {e : List Msg}
    {c : Option (Result ⊕ List (String × Result))}
    (h : ∀ x ∈ topChildren c, AllNodes nodeOK x) :
    AllNodes nodeOK (mkResult l e c) :=
  .node _ (nodeOK_mkResult l e c)
    (fun x hx => h x (resultChildren_mkResult_sub l e c x hx))

/-- Members of a dict after a Python-style insertion come from the old dict
or are the inserted pair. -/
lemma pyInsert_mem {l : List (String × Result)} {k : String} {r : Result}
    {p : String × Result} (h : p ∈ pyInsert l k r) : p ∈ l ∨ p = (k, r) := by
  induction l with
  | nil => simpa [pyInsert] using h
  | cons hd tl ih =>
    obtain ⟨k2, r2⟩ := hd
    by_cases hk : k2 = k
    · simp [pyInsert, hk] at h
      rcases h with h | h
      · right; simp [h]
      · left; simp [h]
    · simp [pyInsert, hk] at h
      rcases h with h | h
      · left; simp [h]
      · rcases ih h with h2 | h2
        · left; simp [h2]
        · right; exact h2

/-- sizeOf bound for the type component of a field list member. -/
lemma sizeOf_snd_lt_of_mem {p : String × Ty} {l : List (String × Ty)}
    (h : p ∈ l) : sizeOf p.2 < sizeOf l := by
  have h1 := List.sizeOf_lt_of_mem h
  obtain ⟨a, b⟩ := p
  simp at h1 ⊢
  omega

lemma sizeOf_alt_lt_of_mem {a : Ty} {l : List Ty} (h : a ∈ l) :
    sizeOf a < sizeOf l :=
  List.sizeOf_lt_of_mem h

/-! Every result tree produced by the checker of src/type_validation.py
satisfies the per-node invariants. -/

lemma tvFields_inv {m : List (String × JVal)} {fields : List (String × Ty)}
    (H : ∀ p ∈ fields, ∀ v r, TV.matchv v p.2 = .ok r → AllNodes nodeOK r) :
    ∀ cs, TV.matchFields m fields = .ok cs →
      ∀ c ∈ cs, AllNodes nodeOK c.2 ∧ c.2.has_errors = true := by
  induction fields with
  | nil =>
    intro cs hcs
    simp only [TV.matchFields] at hcs
    injection hcs with h
    subst h
    simp
  | cons hd tl ih =>
    obtain ⟨f, ft⟩ := hd
    intro cs hcs
    simp only [TV.matchFields] at hcs
    have Htl : ∀ p ∈ tl, ∀ v r, TV.matchv v p.2 = .ok r → AllNodes nodeOK r :=
      fun p hp => H p (List.mem_cons_of_mem _ hp)
    split at hcs
    · exact ih Htl cs hcs
    · rename_i fv hget
      split at hcs
      · simp at hcs
      · rename_i rr hmv
        split at hcs
        · simp at hcs
        · rename_i others hrest
          injection hcs with h
          subst h
          intro c hc
          by_cases he : rr.has_errors
          · simp only [he, if_true] at hc
            rcases List.mem_cons.mp hc with hc2 | hc2
            · subst hc2
              exact ⟨H (f, ft) (List.mem_cons_self _ _) fv rr hmv, he⟩
            · exact ih Htl others hrest c hc2
          · simp only [he, if_false] at hc
            exact ih Htl others hrest c hc

lemma tvDict_inv {m : List (String × JVal)} {fields : List (String × Ty)}
    {optional : Bool}
    (H : ∀ p ∈ fields, ∀ v r, TV.matchv v p.2 = .ok r → AllNodes nodeOK r) :
    ∀ r, TV.match_dict m fields optional = .ok r → AllNodes nodeOK r := by
  intro r hr
  simp only [TV.match_dict] at hr
  split at hr
  · simp at hr
  · rename_i cs hcs
    injection hr with h
    subst h
    apply allNodes_mkResult
    intro x hx
    simp only [topChildren, List.mem_map] at hx
    obtain ⟨c, hc, hcx⟩ := hx
    subst hcx
    exact (tvFields_inv H cs hcs c hc).1

lemma tvElems_inv {e : Ty} {xs : List JVal}
    (H : ∀ v r, TV.matchv v e = .ok r → AllNodes nodeOK r) :
    ∀ rs, TV.matchElems e xs = .ok rs → ∀ r ∈ rs, AllNodes nodeOK r := by
  induction xs with
  | nil =>
    intro rs hrs
    simp only [TV.matchElems] at hrs
    injection hrs with h
    subst h
    simp
  | cons x xs ih =>
    intro rs hrs
    simp only [TV.matchElems] at hrs
    split at hrs
    · simp at hrs
    · rename_i rr hmv
      split at hrs
      · simp at hrs
      · rename_i tlrs htl
        injection hrs with h
        subst h
        intro q hq
        rcases List.mem_cons.mp hq with hq2 | hq2
        · rw [hq2]; exact H x rr hmv
        · exact ih tlrs htl q hq2

lemma tvList_inv {v : JVal} {e : Ty}
    (H : ∀ w r, TV.matchv w e = .ok r → AllNodes nodeOK r) :
    ∀ r, TV.match_list v e = .ok r → AllNodes nodeOK r := by
  intro r hr
  simp only [TV.match_list] at hr
  split at hr
  · simp at hr
  · rename_i elems hiter
    split at hr
    · simp at hr
    · rename_i rs hrs
      split at hr
      · injection hr with h
        subst h
        exact allNodes_mkResult (by intro x hx; simp [topChildren] at hx)
      · rename_i fst rfl2 hfilter
        injection hr with h
        subst h
        apply allNodes_mkResult
        intro x hx
        simp only [topChildren, List.map_cons, List.map_nil,
          List.mem_singleton] at hx
        rw [hx]
        have hmem : fst ∈ rs.filter (fun q => q.has_errors) := by
          rw [hfilter]; exact List.mem_cons_self _ _
        exact tvElems_inv H rs hrs fst (List.mem_of_mem_filter hmem)

lemma tvUnion_inv {v : JVal} {alts : List Ty} {acc : List (String × Result)}
    (H : ∀ a ∈ alts, ∀ w r, TV.matchv w a = .ok r → AllNodes nodeOK r)
    (Hacc : ∀ p ∈ acc, AllNodes nodeOK p.2) :
    ∀ r, TV.match_union v alts acc = .ok r → AllNodes nodeOK r := by
  induction alts generalizing acc with
  | nil =>
    intro r hr
    simp only [TV.match_union] at hr
    injection hr with h
    subst h
    apply allNodes_mkResult
    intro x hx
    simp only [topChildren, List.mem_map] at hx
    obtain ⟨c, hc, hcx⟩ := hx
    subst hcx
    exact Hacc c hc
  | cons a rest ih =>
    intro r hr
    simp only [TV.match_union] at hr
    split at hr
    · simp at hr
    · rename_i mr hmv
      by_cases he : mr.has_errors
      · simp only [he, if_true] at hr
        refine ih (fun b hb => H b (List.mem_cons_of_mem _ hb)) ?_ r hr
        intro p hp
        rcases pyInsert_mem hp with hp2 | hp2
        · exact Hacc p hp2
        · subst hp2
          exact H a (List.mem_cons_self _ _) v mr hmv
      · simp only [he, if_false] at hr
        injection hr with h
        subst h
        exact allNodes_mkResult (by intro x hx; simp [topChildren] at hx)

lemma tvPage_inv {v : JVal} {item : Ty} {b : Bool}
    (H : ∀ w r, TV.matchv w item = .ok r → AllNodes nodeOK r) :
    ∀ r, TV.match_page v item b = .ok r → AllNodes nodeOK r := by
  intro r hr
  cases b <;> cases v <;>
    simp only [TV.match_page, reduceIte, Bool.false_eq_true, if_false, if_true] at hr
  all_goals
    try (injection hr with h; subst h;
         exact allNodes_mkResult (by intro x hx; simp [topChildren] at hx))
  all_goals
    (split at hr
     case isTrue =>
       split at hr
       case h_1 => exact Except.noConfusion hr
       case h_2 =>
         split at hr
         case h_1 => exact Except.noConfusion hr
         case h_2 =>
           rename_i nested hnested
           injection hr with h
           subst h
           apply allNodes_mkResult
           intro x hx
           simp only [topChildren, List.mem_singleton] at hx
           rw [hx]
           exact tvList_inv H nested hnested
     case isFalse =>
       injection hr with h
       subst h
       exact allNodes_mkResult (by intro x hx; simp [topChildren] at hx))

lemma tvTypeddict_inv {m : List (String × JVal)} {name : String}
    {req opt : List (String × Ty)}
    (Hreq : ∀ p ∈ req, ∀ v r, TV.matchv v p.2 = .ok r → AllNodes nodeOK r)
    (Hopt : ∀ p ∈ opt, ∀ v r, TV.matchv v p.2 = .ok r → AllNodes nodeOK r) :
    ∀ r, TV.match_typeddict m name req opt = .ok r → AllNodes nodeOK r := by
  intro r hr
  simp only [TV.match_typeddict] at hr
  split at hr
  · simp at hr
  · rename_i reqR hreq
    split at hr
    · injection hr with h
      subst h
      apply allNodes_mkResult
      intro x hx
      simp only [topChildren, List.map_cons, List.map_nil,
        List.mem_singleton] at hx
      rw [hx]
      exact tvDict_inv Hreq reqR hreq
    · split at hr
      · simp at hr
      · rename_i optR hopt
        injection hr with h
        subst h
        apply allNodes_mkResult
        intro x hx
        simp only [topChildren, List.map_cons, List.map_nil] at hx
        rcases List.mem_cons.mp hx with hx2 | hx2
        · rw [hx2]; exact tvDict_inv Hreq reqR hreq
        · simp only [List.mem_singleton] at hx2
          rw [hx2]; exact tvDict_inv Hopt optR hopt

/-- Every result tree returned by TypeChecker.match of
src/type_validation.py satisfies the node invariants at every node. -/
lemma tvMatch_inv : ∀ t v r, TV.matchv v t = .ok r → AllNodes nodeOK r := by
  have main : ∀ n t, sizeOf t < n → ∀ v r, TV.matchv v t = .ok r → AllNodes nodeOK r := by
    intro n
    induction n with
    | zero => intro t ht; exact absurd ht (Nat.not_lt_zero _)
    | succ n ih =>
      intro t ht v r hr
      cases t with
      | prim k =>
        simp only [TV.matchv] at hr
        injection hr with h
        subst h
        simp only [TV.match_primitive]
        exact allNodes_mkResult (by intro x hx; simp [topChildren] at hx)
      | rawdict fields =>
        cases v
        case dict m =>
          simp only [TV.matchv] at hr
          refine tvDict_inv ?_ r hr
          intro p hp w q hq
          have hlt := sizeOf_snd_lt_of_mem hp
          exact ih p.2 (by simp at ht; omega) w q hq
        all_goals
          (simp only [TV.matchv] at hr
           exact Except.noConfusion hr)
      | listOf e =>
        simp only [TV.matchv] at hr
        refine tvList_inv ?_ r hr
        intro w q hq
        exact ih e (by simp at ht; omega) w q hq
      | union alts =>
        simp only [TV.matchv] at hr
        refine tvUnion_inv ?_ (by simp) r hr
        intro a ha w q hq
        have hlt := sizeOf_alt_lt_of_mem ha
        exact ih a (by simp at ht; omega) w q hq
      | page item =>
        simp only [TV.matchv] at hr
        refine tvPage_inv ?_ r hr
        intro w q hq
        exact ih item (by simp at ht; omega) w q hq
      | cursorPage item =>
        simp only [TV.matchv] at hr
        refine tvPage_inv ?_ r hr
        intro w q hq
        exact ih item (by simp at ht; omega) w q hq
      | typeddict name req opt =>
        cases v
        case dict m =>
          simp only [TV.matchv] at hr
          split at hr
          · exact Except.noConfusion hr
          · refine tvTypeddict_inv ?_ ?_ r hr
            · intro p hp w q hq
              have hlt := sizeOf_snd_lt_of_mem hp
              exact ih p.2 (by simp at ht; omega) w q hq
            · intro p hp w q hq
              have hlt := sizeOf_snd_lt_of_mem hp
              exact ih p.2 (by simp at ht; omega) w q hq
        all_goals
          (simp only [TV.matchv] at hr
           split at hr <;> exact Except.noConfusion hr)
      | unknown =>
        simp only [TV.matchv] at hr
        exact Except.noConfusion hr
  exact fun t => main (sizeOf t + 1) t (Nat.lt_succ_self _)

/-! The same node invariants for the checker of src/tests/typechecker.py. -/

lemma tcFields_inv {m : List (String × JVal)} {fields : List (String × Ty)}
    (H : ∀ p ∈ fields, ∀ v r, TC.typecheck v p.2 = .ok r → AllNodes nodeOK r) :
    ∀ cs, TC.matchFields m fields = .ok cs →
      ∀ c ∈ cs, AllNodes nodeOK c.2 ∧ c.2.has_errors = true := by
  induction fields with
  | nil =>
    intro cs hcs
    simp only [TC.matchFields] at hcs
    injection hcs with h
    subst h
    simp
  | cons hd tl ih =>
    obtain ⟨f, ft⟩ := hd
    intro cs hcs
    simp only [TC.matchFields] at hcs
    have Htl : ∀ p ∈ tl, ∀ v r, TC.typecheck v p.2 = .ok r → AllNodes nodeOK r :=
      fun p hp => H p (List.mem_cons_of_mem _ hp)
    split at hcs
    · exact ih Htl cs hcs
    · rename_i fv hget
      split at hcs
      · simp at hcs
      · rename_i rr hmv
        split at hcs
        · simp at hcs
        · rename_i others hrest
          injection hcs with h
          subst h
          intro c hc
          by_cases he : rr.has_errors
          · simp only [he, if_true] at hc
            rcases List.mem_cons.mp hc with hc2 | hc2
            · subst hc2
              exact ⟨H (f, ft) (List.mem_cons_self _ _) fv rr hmv, he⟩
            · exact ih Htl others hrest c hc2
          · simp only [he, if_false] at hc
            exact ih Htl others hrest c hc

lemma tcDict_inv {m : List (String × JVal)} {fields : List (String × Ty)}
    {optional : Bool}
    (H : ∀ p ∈ fields, ∀ v r, TC.typecheck v p.2 = .ok r → AllNodes nodeOK r) :
    ∀ r, TC.match_dict m fields optional = .ok r → AllNodes nodeOK r := by
  intro r hr
  simp only [TC.match_dict] at hr
  split at hr
  · simp at hr
  · rename_i cs hcs
    injection hr with h
    subst h
    apply allNodes_mkResult
    intro x hx
    simp only [topChildren, List.mem_map] at hx
    obtain ⟨c, hc, hcx⟩ := hx
    subst hcx
    exact (tcFields_inv H cs hcs c hc).1

lemma tcElems_inv {e : Ty} {xs : List JVal}
    (H : ∀ v r, TC.typecheck v e = .ok r → AllNodes nodeOK r) :
    ∀ rs, TC.matchElems e xs = .ok rs → ∀ r ∈ rs, AllNodes nodeOK r := by
  induction xs with
  | nil =>
    intro rs hrs
    simp only [TC.matchElems] at hrs
    injection hrs with h
    subst h
    simp
  | cons x xs ih =>
    intro rs hrs
    simp only [TC.matchElems] at hrs
    split at hrs
    · simp at hrs
    · rename_i rr hmv
      split at hrs
      · simp at hrs
      · rename_i tlrs htl
        injection hrs with h
        subst h
        intro q hq
        rcases List.mem_cons.mp hq with hq2 | hq2
        · rw [hq2]; exact H x rr hmv
        · exact ih tlrs htl q hq2

lemma tcList_inv {v : JVal} {e : Ty}
    (H : ∀ w r, TC.typecheck w e = .ok r → AllNodes nodeOK r) :
    ∀ r, TC.match_list v e = .ok r → AllNodes nodeOK r := by
  intro r hr
  cases v <;> simp only [TC.match_list] at hr
  all_goals
    try (injection hr with h; subst h;
         exact allNodes_mkResult (by intro x hx; simp [topChildren] at hx))
  rename_i xs
  split at hr
  · simp at hr
  · rename_i rs hrs
    split at hr
    · injection hr with h
      subst h
      exact allNodes_mkResult (by intro x hx; simp [topChildren] at hx)
    · rename_i fst rest hfilter
      injection hr with h
      subst h
      apply allNodes_mkResult
      intro x hx
      simp only [topChildren, List.map_cons, List.map_nil,
        List.mem_singleton] at hx
      rw [hx]
      have hmem : fst ∈ rs.filter (fun q => q.has_errors) := by
        rw [hfilter]; exact List.mem_cons_self _ _
      exact tcElems_inv H rs hrs fst (List.mem_of_mem_filter hmem)

lemma tcUnion_inv {v : JVal} {alts : List Ty} {acc : List (String × Result)}
    (H : ∀ a ∈ alts, ∀ w r, TC.typecheck w a = .ok r → AllNodes nodeOK r)
    (Hacc : ∀ p ∈ acc, AllNodes nodeOK p.2) :
    ∀ r, TC.match_union v alts acc = .ok r → AllNodes nodeOK r := by
  induction alts generalizing acc with
  | nil =>
    intro r hr
    simp only [TC.match_union] at hr
    injection hr with h
    subst h
    apply allNodes_mkResult
    intro x hx
    simp only [topChildren, List.mem_map] at hx
    obtain ⟨c, hc, hcx⟩ := hx
    subst hcx
    exact Hacc c hc
  | cons a rest ih =>
    intro r hr
    simp only [TC.match_union] at hr
    split at hr
    · simp at hr
    · rename_i mr hmv
      by_cases he : mr.has_errors
      · simp only [he, if_true] at hr
        refine ih (fun b hb => H b (List.mem_cons_of_mem _ hb)) ?_ r hr
        intro p hp
        rcases pyInsert_mem hp with hp2 | hp2
        · exact Hacc p hp2
        · subst hp2
          exact H a (List.mem_cons_self _ _) v mr hmv
      · simp only [he, if_false] at hr
        injection hr with h
        subst h
        exact allNodes_mkResult (by intro x hx; simp [topChildren] at hx)

lemma tcPage_inv {v : JVal} {item : Ty} {b : Bool}
    (H : ∀ w r, TC.typecheck w item = .ok r → AllNodes nodeOK r) :
    ∀ r, TC.match_page v item b = .ok r → AllNodes nodeOK r := by
  intro r hr
  cases b <;> cases v <;>
    simp only [TC.match_page, reduceIte, Bool.false_eq_true, if_false, if_true] at hr
  all_goals
    try (injection hr with h; subst h;
         exact allNodes_mkResult (by intro x hx; simp [topChildren] at hx))
  all_goals
    (split at hr
     case isTrue =>
       split at hr
       case h_1 => exact Except.noConfusion hr
       case h_2 =>
         split at hr
         case h_1 => exact Except.noConfusion hr
         case h_2 =>
           rename_i nested hnested
           injection hr with h
           subst h
           apply allNodes_mkResult
           intro x hx
           simp only [topChildren, List.mem_singleton] at hx
           rw [hx]
           exact tcList_inv H nested hnested
     case isFalse =>
       injection hr with h
       subst h
       exact allNodes_mkResult (by intro x hx; simp [topChildren] at hx))

lemma tcTypeddict_inv {m : List (String × JVal)} {name : String}
    {req opt : List (String × Ty)}
    (Hreq : ∀ p ∈ req, ∀ v r, TC.typecheck v p.2 = .ok r → AllNodes nodeOK r)
    (Hopt : ∀ p ∈ opt, ∀ v r, TC.typecheck v p.2 = .ok r → AllNodes nodeOK r) :
    ∀ r, TC.match_typeddict m name req opt = .ok r → AllNodes nodeOK r := by
  intro r hr
  simp only [TC.match_typeddict] at hr
  split at hr
  · simp at hr
  · rename_i reqR hreq
    split at hr
    · injection hr with h
      subst h
      apply allNodes_mkResult
      intro x hx
      simp only [topChildren, List.map_cons, List.map_nil,
        List.mem_singleton] at hx
      rw [hx]
      exact tcDict_inv Hreq reqR hreq
    · split at hr
      · simp at hr
      · rename_i optR hopt
        injection hr with h
        subst h
        apply allNodes_mkResult
        intro x hx
        simp only [topChildren, List.map_cons, List.map_nil] at hx
        rcases List.mem_cons.mp hx with hx2 | hx2
        · rw [hx2]; exact tcDict_inv Hreq reqR hreq
        · simp only [List.mem_singleton] at hx2
          rw [hx2]; exact tcDict_inv Hopt optR hopt

/-- Every result tree returned by TypeChecker.typecheck of
src/tests/typechecker.py satisfies the node invariants at every node. -/
lemma tcMatch_inv : ∀ t v r, TC.typecheck v t = .ok r → AllNodes nodeOK r := by
  have main : ∀ n t, sizeOf t < n → ∀ v r, TC.typecheck v t = .ok r → AllNodes nodeOK r := by
    intro n
    induction n with
    | zero => intro t ht; exact absurd ht (Nat.not_lt_zero _)
    | succ n ih =>
      intro t ht v r hr
      cases t with
      | prim k =>
        simp only [TC.typecheck] at hr
        injection hr with h
        subst h
        simp only [TC.match_primitive]
        split
        · exact allNodes_mkResult (by intro x hx; simp [topChildren] at hx)
        · exact allNodes_mkResult (by intro x hx; simp [topChildren] at hx)
      | rawdict fields =>
        cases v
        case dict m =>
          simp only [TC.typecheck] at hr
          refine tcDict_inv ?_ r hr
          intro p hp w q hq
          have hlt := sizeOf_snd_lt_of_mem hp
          exact ih p.2 (by simp at ht; omega) w q hq
        all_goals
          (simp only [TC.typecheck] at hr
           exact Except.noConfusion hr)
      | listOf e =>
        simp only [TC.typecheck] at hr
        refine tcList_inv ?_ r hr
        intro w q hq
        exact ih e (by simp at ht; omega) w q hq
      | union alts =>
        simp only [TC.typecheck] at hr
        refine tcUnion_inv ?_ (by simp) r hr
        intro a ha w q hq
        have hlt := sizeOf_alt_lt_of_mem ha
        exact ih a (by simp at ht; omega) w q hq
      | page item =>
        simp only [TC.typecheck] at hr
        refine tcPage_inv ?_ r hr
        intro w q hq
        exact ih item (by simp at ht; omega) w q hq
      | cursorPage item =>
        simp only [TC.typecheck] at hr
        refine tcPage_inv ?_ r hr
        intro w q hq
        exact ih item (by simp at ht; omega) w q hq
      | typeddict name req opt =>
        cases v
        case dict m =>
          simp only [TC.typecheck] at hr
          split at hr
          · exact Except.noConfusion hr
          · refine tcTypeddict_inv ?_ ?_ r hr
            · intro p hp w q hq
              have hlt := sizeOf_snd_lt_of_mem hp
              exact ih p.2 (by simp at ht; omega) w q hq
            · intro p hp w q hq
              have hlt := sizeOf_snd_lt_of_mem hp
              exact ih p.2 (by simp at ht; omega) w q hq
        all_goals
          (simp only [TC.typecheck] at hr
           split at hr <;> exact Except.noConfusion hr)
      | unknown =>
        simp only [TC.typecheck] at hr
        exact Except.noConfusion hr
  exact fun t => main (sizeOf t + 1) t (Nat.lt_succ_self _)

/-! Shape-compatible values never make the checker of src/type_validation.py
raise. -/

lemma tvFieldsFit_ok {m : List (String × JVal)} {fields : List (String × Ty)}
    (H : ∀ p ∈ fields, ∀ w, fits w p.2 = true → ∃ q, TV.matchv w p.2 = .ok q) :
    fitsFields m fields = true → ∃ cs, TV.matchFields m fields = .ok cs := by
  induction fields with
  | nil => intro hf; exact ⟨[], by simp [TV.matchFields]⟩
  | cons hd tl ih =>
    obtain ⟨f, ft⟩ := hd
    intro hf
    simp only [fitsFields, Bool.and_eq_true] at hf
    obtain ⟨hf1, hf2⟩ := hf
    have Htl : ∀ p ∈ tl, ∀ w, fits w p.2 = true → ∃ q, TV.matchv w p.2 = .ok q :=
      fun p hp => H p (List.mem_cons_of_mem _ hp)
    obtain ⟨cs, hcs⟩ := ih Htl hf2
    cases hget : dictGet m f with
    | none =>
      refine ⟨cs, ?_⟩
      simp only [TV.matchFields, hget]
      exact hcs
    | some fv =>
      simp only [hget] at hf1
      obtain ⟨q, hq⟩ := H (f, ft) (List.mem_cons_self _ _) fv hf1
      have hq2 : TV.matchv fv ft = .ok q := hq
      refine ⟨if q.has_errors then (f, q) :: cs else cs, ?_⟩
      simp only [TV.matchFields, hget, hq2, hcs]

lemma tvElemsFit_ok {e : Ty} {xs : List JVal}
    (H : ∀ w, fits w e = true → ∃ q, TV.matchv w e = .ok q) :
    fitsElems e xs = true → ∃ rs, TV.matchElems e xs = .ok rs := by
  induction xs with
  | nil => intro hf; exact ⟨[], by simp [TV.matchElems]⟩
  | cons x xs ih =>
    intro hf
    simp only [fitsElems, Bool.and_eq_true] at hf
    obtain ⟨hf1, hf2⟩ := hf
    obtain ⟨q, hq⟩ := H x hf1
    obtain ⟨rs, hrs⟩ := ih hf2
    exact ⟨q :: rs, by simp only [TV.matchElems, hq, hrs]⟩

lemma tvListFit_ok {v : JVal} {e : Ty} {elems : List JVal}
    (H : ∀ w, fits w e = true → ∃ q, TV.matchv w e = .ok q)
    (hiter : pyIterElems v = some elems)
    (hf : fitsElems e elems = true) :
    ∃ r, TV.match_list v e = .ok r := by
  obtain ⟨rs, hrs⟩ := tvElemsFit_ok H hf
  simp only [TV.match_list, hiter, hrs]
  cases hfil : rs.filter (fun r => r.has_errors) with
  | nil => exact ⟨_, rfl⟩
  | cons fst rest => exact ⟨_, rfl⟩

lemma tvUnionFit_ok {v : JVal} {alts : List Ty}
    (H : ∀ a ∈ alts, fits v a = true → ∃ q, TV.matchv v a = .ok q)
    (hf : fitsAll v alts = true) :
    ∀ acc, ∃ r, TV.match_union v alts acc = .ok r := by
  induction alts with
  | nil =>
    intro acc
    exact ⟨mkResult "union" [.noneOfUnionMatched] (some (.inr acc)),
      by simp [TV.match_union]⟩
  | cons a rest ih =>
    intro acc
    simp only [fitsAll, Bool.and_eq_true] at hf
    obtain ⟨hf1, hf2⟩ := hf
    obtain ⟨q, hq⟩ := H a (List.mem_cons_self _ _) hf1
    have Hrest : ∀ b ∈ rest, fits v b = true → ∃ q, TV.matchv v b = .ok q :=
      fun b hb => H b (List.mem_cons_of_mem _ hb)
    simp only [TV.match_union, hq]
    by_cases he : q.has_errors
    · simp only [he, if_true]
      exact ih Hrest hf2 _
    · simp only [he, if_false]
      exact ⟨_, rfl⟩

lemma tvDictFit_ok {m : List (String × JVal)} {fields : List (String × Ty)}
    {optional : Bool}
    (H : ∀ p ∈ fields, ∀ w, fits w p.2 = true → ∃ q, TV.matchv w p.2 = .ok q)
    (hf : fitsFields m fields = true) :
    ∃ r, TV.match_dict m fields optional = .ok r := by
  obtain ⟨cs, hcs⟩ := tvFieldsFit_ok H hf
  simp only [TV.match_dict, hcs]
  exact ⟨_, rfl⟩

lemma tvPageFit_ok {v : JVal} {item : Ty} {b : Bool}
    (H : ∀ w, fits w item = true → ∃ q, TV.matchv w item = .ok q)
    (hf : fitsPage v item b = true) :
    ∃ r, TV.match_page v item b = .ok r := by
  cases b <;> cases v <;>
    simp only [fitsPage, reduceIte, Bool.false_eq_true, if_false, if_true] at hf <;>
    simp only [TV.match_page, reduceIte, Bool.false_eq_true, if_false, if_true]
  all_goals try exact ⟨_, rfl⟩
  all_goals
    (rename_i m
     split
     case isTrue hemp =>
       rw [if_pos hemp] at hf
       split at hf
       · exact absurd hf (by simp)
       · rename_i items hget
         split at hf
         · exact absurd hf (by simp)
         · rename_i elems hiter
           obtain ⟨nested, hnested⟩ := tvListFit_ok H hiter hf
           simp only [hget, hnested]
           exact ⟨_, rfl⟩
     case isFalse hemp =>
       exact ⟨_, rfl⟩)

lemma tvTypeddictFit_ok {m : List (String × JVal)} {name : String}
    {req opt : List (String × Ty)}
    (Hreq : ∀ p ∈ req, ∀ w, fits w p.2 = true → ∃ q, TV.matchv w p.2 = .ok q)
    (Hopt : ∀ p ∈ opt, ∀ w, fits w p.2 = true → ∃ q, TV.matchv w p.2 = .ok q)
    (hfr : fitsFields m req = true) (hfo : fitsFields m opt = true) :
    ∃ r, TV.match_typeddict m name req opt = .ok r := by
  obtain ⟨reqR, hreq⟩ := @tvDictFit_ok m req false Hreq hfr
  obtain ⟨optR, hopt⟩ := @tvDictFit_ok m opt true Hopt hfo
  simp only [TV.match_typeddict, hreq]
  by_cases hoe : opt.isEmpty
  · simp only [hoe, if_true]
    exact ⟨_, rfl⟩
  · simp only [hoe, if_false]
    simp only [hopt]
    exact ⟨_, rfl⟩

/-- A shape-compatible value never makes TypeChecker.match of
src/type_validation.py raise. -/
lemma tvFits_ok : ∀ t v, fits v t = true → ∃ r, TV.matchv v t = .ok r := by
  have main : ∀ n t, sizeOf t < n → ∀ v, fits v t = true → ∃ r, TV.matchv v t = .ok r := by
    intro n
    induction n with
    | zero => intro t ht; exact absurd ht (Nat.not_lt_zero _)
    | succ n ih =>
      intro t ht v hf
      cases t with
      | prim k => exact ⟨TV.match_primitive v k, by simp [TV.matchv]⟩
      | rawdict fields =>
        cases v <;> simp only [fits] at hf
        case dict m =>
          simp only [TV.matchv]
          refine tvDictFit_ok ?_ hf
          intro p hp w hw
          have hlt := sizeOf_snd_lt_of_mem hp
          exact ih p.2 (by simp at ht; omega) w hw
        all_goals exact absurd hf (by simp)
      | listOf e =>
        simp only [fits] at hf
        split at hf
        · exact absurd hf (by simp)
        · rename_i elems hiter
          simp only [TV.matchv]
          refine tvListFit_ok ?_ hiter hf
          intro w hw
          exact ih e (by simp at ht; omega) w hw
      | union alts =>
        simp only [fits] at hf
        simp only [TV.matchv]
        refine tvUnionFit_ok ?_ hf []
        intro a ha hva
        have hlt := sizeOf_alt_lt_of_mem ha
        exact ih a (by simp at ht; omega) v hva
      | page item =>
        simp only [fits] at hf
        simp only [TV.matchv]
        refine tvPageFit_ok ?_ hf
        intro w hw
        exact ih item (by simp at ht; omega) w hw
      | cursorPage item =>
        simp only [fits] at hf
        simp only [TV.matchv]
        refine tvPageFit_ok ?_ hf
        intro w hw
        exact ih item (by simp at ht; omega) w hw
      | typeddict name req opt =>
        cases v <;> simp only [fits] at hf
        case dict m =>
          split at hf
          · exact absurd hf (by simp)
          · rename_i hne
            simp only [Bool.and_eq_true] at hf
            simp only [TV.matchv, hne, if_false]
            refine tvTypeddictFit_ok ?_ ?_ hf.1 hf.2
            · intro p hp w hw
              have hlt := sizeOf_snd_lt_of_mem hp
              exact ih p.2 (by simp at ht; omega) w hw
            · intro p hp w hw
              have hlt := sizeOf_snd_lt_of_mem hp
              exact ih p.2 (by simp at ht; omega) w hw
        all_goals (split at hf <;> exact absurd hf (by simp))
      | unknown => exact absurd hf (by simp [fits])
  exact fun t => main (sizeOf t + 1) t (Nat.lt_succ_self _)

/-- The children retained by the per-field loop of match_dict are failing. -/
lemma tvFields_fail {m : List (String × JVal)} :
    ∀ fields cs, TV.matchFields m fields = .ok cs →
      ∀ c ∈ cs, c.2.has_errors = true := by
  intro fields
  induction fields with
  | nil =>
    intro cs hcs
    simp only [TV.matchFields] at hcs
    injection hcs with h
    subst h
    simp
  | cons hd tl ih =>
    obtain ⟨f, ft⟩ := hd
    intro cs hcs
    simp only [TV.matchFields] at hcs
    split at hcs
    · exact ih cs hcs
    · rename_i fv hget
      split at hcs
      · simp at hcs
      · rename_i rr hmv
        split at hcs
        · simp at hcs
        · rename_i others hrest
          injection hcs with h
          subst h
          intro c hc
          by_cases he : rr.has_errors
          · simp only [he, if_true] at hc
            rcases List.mem_cons.mp hc with hc2 | hc2
            · subst hc2; exact he
            · exact ih others hrest c hc2
          · simp only [he, if_false] at hc
            exact ih others hrest c hc

/-- The children dict of a union node only ever holds failing results. -/
lemma tvUnionGo_fail {v : JVal} :
    ∀ alts (acc : List (String × Result)),
      (∀ p ∈ acc, p.2.has_errors = true) →
      ∀ r, TV.match_union v alts acc = .ok r →
      ∀ cs, r.children = some (.inr cs) → ∀ p ∈ cs, p.2.has_errors = true := by
  intro alts
  induction alts with
  | nil =>
    intro acc hacc r hr cs hcs
    simp only [TV.match_union] at hr
    injection hr with h
    subst h
    rw [mkResult_children] at hcs
    match hacc2 : acc, hcs with
    | [], hcs => simp [childNorm] at hcs
    | q :: qs, hcs =>
      simp only [childNorm] at hcs
      injection hcs with h2
      injection h2 with h3
      subst h3
      exact hacc
  | cons a rest ih =>
    intro acc hacc r hr cs hcs
    simp only [TV.match_union] at hr
    split at hr
    · simp at hr
    · rename_i mr hmv
      by_cases he : mr.has_errors
      · simp only [he, if_true] at hr
        refine ih (pyInsert acc (tyName a) mr) ?_ r hr cs hcs
        intro p hp
        rcases pyInsert_mem hp with hp2 | hp2
        · exact hacc p hp2
        · rw [hp2]; exact he
      · simp only [he, if_false] at hr
        injection hr with h
        subst h
        rw [mkResult_children] at hcs
        simp [childNorm] at hcs

/-- Membership in a modelled key-set difference. -/
lemma keysNotIn_mem_iff {k : String} {a b : List String} :
    k ∈ keysNotIn a b ↔ k ∈ a ∧ k ∉ b := by
  simp [keysNotIn]

/-- When every declared field present in the value matches without errors,
the per-field loop of match_dict retains nothing. -/
lemma tvFields_pass {m : List (String × JVal)} :
    ∀ fields,
      (∀ f ft fv, (f, ft) ∈ fields → dictGet m f = some fv →
        ∃ mr, TV.matchv fv ft = .ok mr ∧ mr.has_errors = false) →
      TV.matchFields m fields = .ok [] := by
  intro fields
  induction fields with
  | nil => intro H; simp [TV.matchFields]
  | cons hd tl ih =>
    obtain ⟨f, ft⟩ := hd
    intro H
    have htl := ih (fun g gt gv hg => H g gt gv (List.mem_cons_of_mem _ hg))
    cases hget : dictGet m f with
    | none => simp only [TV.matchFields, hget]; exact htl
    | some fv =>
      obtain ⟨mr, hm, hfe⟩ := H f ft fv (List.mem_cons_self _ _) hget
      simp only [TV.matchFields, hget, hm, htl, hfe]
      simp

/-- A non-optional match_dict call with missing declared fields reports
exactly one error naming the missing key set, and fails. -/
lemma tvDict_missing {m : List (String × JVal)} {fields : List (String × Ty)}
    (hne : keysNotIn (fields.map Prod.fst) (dictKeys m) ≠ []) :
    ∀ r, TV.match_dict m fields false = .ok r →
      r.error_messages =
        [Msg.missingRequiredKeys (keysNotIn (fields.map Prod.fst) (dictKeys m))] ∧
      r.has_errors = true := by
  intro r hr
  simp only [TV.match_dict] at hr
  split at hr
  · simp at hr
  · rename_i cs hcs
    injection hr with h
    subst h
    have hie : (keysNotIn (fields.map Prod.fst) (dictKeys m)).isEmpty = false := by
      cases hk : keysNotIn (fields.map Prod.fst) (dictKeys m) with
      | nil => exact absurd hk hne
      | cons q qs => simp
    rw [hie]
    constructor
    · simp
    · simp [computeHasErrors]

/-- A key that is present in the dict has a value. -/
lemma dictGet_isSome {m : List (String × JVal)} {k : String}
    (h : k ∈ dictKeys m) : ∃ v, dictGet m k = some v := by
  induction m with
  | nil => simp [dictKeys] at h
  | cons hd tl ih =>
    obtain ⟨k2, v2⟩ := hd
    by_cases hk : k2 = k
    · exact ⟨v2, by simp [dictGet, hk]⟩
    · simp only [dictKeys, List.map_cons, List.mem_cons] at h
      rcases h with h | h
      · exact absurd h.symm hk
      · obtain ⟨v, hv⟩ := ih h
        exact ⟨v, by simp [dictGet, hk, hv]⟩

/-- An empty modelled key-set difference is containment. -/
lemma keysNotIn_eq_nil_iff {a b : List String} :
    keysNotIn a b = [] ↔ ∀ k ∈ a, k ∈ b := by
  simp [keysNotIn, List.filter_eq_nil_iff]

/-- The page field-set errors vanish exactly when the key set equals the
fixed field set. -/
lemma pageErrors_nil_keyset {m : List (String × JVal)} {fields : List String} :
    pageErrors m fields = [] ↔ (∀ k, k ∈ dictKeys m ↔ k ∈ fields) := by
  have h : pageErrors m fields = [] ↔
      (keysNotIn (dictKeys m) fields = [] ∧ keysNotIn fields (dictKeys m) = []) := by
    unfold pageErrors
    by_cases h1 : (keysNotIn (dictKeys m) fields).isEmpty <;>
      by_cases h2 : (keysNotIn fields (dictKeys m)).isEmpty <;>
      simp_all [List.isEmpty_iff]
  rw [h, keysNotIn_eq_nil_iff, keysNotIn_eq_nil_iff]
  constructor
  · rintro ⟨hab, hba⟩ k
    exact ⟨fun hk => hab k hk, fun hk => hba k hk⟩
  · intro hk
    exact ⟨fun k h2 => (hk k).1 h2, fun k h2 => (hk k).2 h2⟩

/-- The entry point sends Page and CursorPage to match_page. -/
lemma tvMatchv_page (v : JVal) (item : Ty) (b : Bool) :
    TV.matchv v (if b then .page item else .cursorPage item) =
      TV.match_page v item b := by
  cases b <;> simp [TV.matchv]

/-- Running match_page on a mapping whose key set matches and whose items
match as a list. -/
lemma tvPage_run_pass {m : List (String × JVal)} {item : Ty} {b : Bool}
    {it : JVal} {mr : Result}
    (hpe : pageErrors m (if b then pageFields else cursorFields) = [])
    (hget : dictGet m "items" = some it)
    (hmr : TV.match_list it item = .ok mr) :
    TV.match_page (.dict m) item b =
      .ok (mkResult (if b then "page" else "cursor_page") [] (some (.inl mr))) := by
  cases b <;>
    simp only [reduceIte, Bool.false_eq_true, if_false, if_true] at hpe ⊢ <;>
    simp only [TV.match_page, reduceIte, Bool.false_eq_true, if_false, if_true] <;>
    simp [hpe, hget, hmr]

/-- Running match_page on a mapping whose key set does not match the fixed
field set: the field-set errors are returned and items is not descended
into. -/
lemma tvPage_run_fail {m : List (String × JVal)} {item : Ty} {b : Bool}
    (hne : pageErrors m (if b then pageFields else cursorFields) ≠ []) :
    TV.match_page (.dict m) item b =
      .ok (mkResult (if b then "page" else "cursor_page")
        (pageErrors m (if b then pageFields else cursorFields)) none) := by
  have hie : (pageErrors m (if b then pageFields else cursorFields)).isEmpty = false := by
    cases h : pageErrors m (if b then pageFields else cursorFields) with
    | nil => exact absurd h hne
    | cons q qs => simp
  cases b <;>
    simp only [reduceIte, Bool.false_eq_true, if_false, if_true] at hie ⊢ <;>
    simp only [TV.match_page, reduceIte, Bool.false_eq_true, if_false, if_true] <;>
    simp [hie]

/-- Inversion for a successful match_page on a mapping. -/
lemma tvPage_run_inv {m : List (String × JVal)} {item : Ty} {b : Bool} {r : Result}
    (hr : TV.match_page (.dict m) item b = .ok r) :
    (pageErrors m (if b then pageFields else cursorFields) = [] ∧
      ∃ it nested, dictGet m "items" = some it ∧
        TV.match_list it item = .ok nested ∧
        r = mkResult (if b then "page" else "cursor_page") [] (some (.inl nested))) ∨
    (pageErrors m (if b then pageFields else cursorFields) ≠ [] ∧
      r = mkResult (if b then "page" else "cursor_page")
        (pageErrors m (if b then pageFields else cursorFields)) none) := by
  cases b <;>
    simp only [TV.match_page, reduceIte, Bool.false_eq_true, if_false, if_true] at hr <;>
    simp only [reduceIte, Bool.false_eq_true, if_false, if_true]
  all_goals
    (split at hr
     case isTrue hemp =>
       left
       refine ⟨by simpa [List.isEmpty_iff] using hemp, ?_⟩
       split at hr
       · exact absurd hr (by simp)
       · rename_i it hget
         split at hr
         · exact absurd hr (by simp)
         · rename_i nested hnested
           injection hr with h
           subst h
           exact ⟨it, nested, hget, hnested, rfl⟩
     case isFalse hemp =>
       right
       refine ⟨by simpa [List.isEmpty_iff] using hemp, ?_⟩
       injection hr with h
       subst h
       rfl)

/-! Claims. -/

/-- C1: the claim states that match(V, Primitive(K)) has errors exactly when
V's runtime kind differs from K.  In src/type_validation.py the isinstance
failure branch of match_primitive constructs the error Result without
returning it, so the checker reports no error even for an integer checked
against str: the result has has_errors = false although runtimeKind differs
from the expected kind.  (The copy in src/tests/typechecker.py returns the
error result, confirming the claim reflects the intent.) -/
theorem claim_C1 :
    TV.matchv (JVal.int 5) (Ty.prim .str) = .ok (Result.mk "primitive" [] none false) ∧
    runtimeKind (JVal.int 5) ≠ some PKind.str := by
  constructor
  · simp [TV.matchv, TV.match_primitive, mkResult, childNorm, computeHasErrors]
  · simp [runtimeKind]

/-- C9: the near-duplicate checkers diverge: on the value 5 against the
primitive type str, the checker of src/type_validation.py reports no error
(its match_primitive drops the error result) while the checker of
src/tests/typechecker.py reports one, so the two disagree on has_errors. -/
theorem claim_C9 :
    TV.matchv (JVal.int 5) (Ty.prim .str) = .ok (Result.mk "primitive" [] none false) ∧
    TC.typecheck (JVal.int 5) (Ty.prim .str) =
      .ok (Result.mk "primitive" [Msg.primitiveMismatch (JVal.int 5) .str] none true) := by
  constructor
  · simp [TV.matchv, TV.match_primitive, mkResult, childNorm, computeHasErrors]
  · simp [TC.typecheck, TC.match_primitive, isinstanceOf, mkResult, childNorm,
      computeHasErrors]

/-- C3, counterexample: a record (TypedDict) is a variant of the closed set,
yet matching the non-mapping value 3 against it raises (AttributeError at
value.keys()) instead of returning a MatchResult, contradicting the claim
that match never throws for well-formed known variants whatever the value's
runtime shape. -/
theorem claim_C3_cex :
    TV.matchv (JVal.int 3) (Ty.typeddict "T" [("a", Ty.prim .int)] []) =
      .error .attributeError := by
  simp [TV.matchv]

/-- C3, amended: match returns a MatchResult (never raises) whenever the
value is shape-compatible with the type at every point the checker
descends (mappings wherever a record or raw field-mapping is checked,
iterables wherever a list is checked); an unrecognized type variant outside
the closed set raises ValueError, distinct from any data-mismatch result
(which is an ordinary returned MatchResult), but a wrong-shaped value
against a known variant can also raise, as the counterexample shows. -/
theorem claim_C3_amended :
    (∀ v t, fits v t = true → ∃ r, TV.matchv v t = .ok r) ∧
    (∀ v, TV.matchv v .unknown = .error .valueError) :=
  ⟨fun v t h => tvFits_ok t v h, fun v => by simp [TV.matchv]⟩

/-- C3, witness: the amended theorem applied at a concrete record value. -/
theorem claim_C3_witness :
    fits (JVal.dict [("a", JVal.int 1)]) (Ty.typeddict "T" [("a", Ty.prim .int)] []) = true ∧
    (∃ r, TV.matchv (JVal.dict [("a", JVal.int 1)])
      (Ty.typeddict "T" [("a", Ty.prim .int)] []) = .ok r) :=
  ⟨by simp [fits, fitsFields, dictGet],
   claim_C3_amended.1 _ _ (by simp [fits, fitsFields, dictGet])⟩

/-- C7: in every result tree either checker produces, the stored has_errors
flag of every node equals its derivation from the node's own error
messages and its children's stored flags: non-empty error messages, or a
single nested child with errors, or some mapped child with errors. -/
theorem claim_C7 :
    (∀ t v r, TV.matchv v t = .ok r → AllNodes nodeConsistent r) ∧
    (∀ t v r, TC.typecheck v t = .ok r → AllNodes nodeConsistent r) :=
  ⟨fun t v r h => AllNodes.mono (fun _ hq => hq.1) (tvMatch_inv t v r h),
   fun t v r h => AllNodes.mono (fun _ hq => hq.1) (tcMatch_inv t v r h)⟩

/-- C7, witness: the consistency of a concrete produced tree. -/
theorem claim_C7_witness :
    AllNodes nodeConsistent (Result.mk "primitive" [] none false) :=
  claim_C7.1 (Ty.prim .int) (JVal.int 1) _
    (by simp [TV.matchv, TV.match_primitive, mkResult, childNorm, computeHasErrors])

/-- C10: in every result tree either checker produces, no node stores an
empty children mapping: the constructor normalizes an empty dict to None,
so children is always either absent, a single nested result, or a
non-empty mapping. -/
theorem claim_C10 :
    (∀ t v r, TV.matchv v t = .ok r → AllNodes nodeNoEmptyMap r) ∧
    (∀ t v r, TC.typecheck v t = .ok r → AllNodes nodeNoEmptyMap r) :=
  ⟨fun t v r h => AllNodes.mono (fun _ hq => hq.2) (tvMatch_inv t v r h),
   fun t v r h => AllNodes.mono (fun _ hq => hq.2) (tcMatch_inv t v r h)⟩

/-- C10, witness: a concrete produced tree (a dict node whose children dict
would be empty and is normalized away). -/
theorem claim_C10_witness :
    AllNodes nodeNoEmptyMap
      (Result.mk "T" [] (some (.inr [("required", Result.mk "dict" [] none false)])) false) :=
  claim_C10.1 (Ty.typeddict "T" [("a", Ty.prim .int)] []) (JVal.dict [("a", JVal.int 1)]) _
    (by simp [TV.matchv, TV.match_typeddict, TV.match_dict, TV.matchFields,
      TV.match_primitive, mkResult, childNorm, computeHasErrors, dictGet,
      dictKeys, keysNotIn, Result.has_errors])

/-- C8, counterexample: the claim states that every child retained in a
node's children has has_errors = true, but match_typeddict stores the
aggregate "required" sub-result unconditionally: on a value that matches
its record perfectly, the produced tree retains a passing child (the
"required" node with has_errors = false). -/
theorem claim_C8_cex :
    TV.matchv (JVal.dict [("a", JVal.int 1)]) (Ty.typeddict "T" [("a", Ty.prim .int)] []) =
      .ok (Result.mk "T" []
        (some (.inr [("required", Result.mk "dict" [] none false)])) false) ∧
    (Result.mk "dict" [] none false).has_errors = false := by
  constructor
  · simp [TV.matchv, TV.match_typeddict, TV.match_dict, TV.matchFields,
      TV.match_primitive, mkResult, childNorm, computeHasErrors, dictGet,
      dictKeys, keysNotIn, Result.has_errors]
  · rfl

/-- C8, amended: the children stored under field names by match_dict, the
"first error" child of match_list, and the per-alternative children of a
union node always have has_errors = true; but match_typeddict stores its
"required" aggregate child unconditionally (also when it passes), and
match_page stores the items-list child unconditionally once the field-set
check succeeds. -/
theorem claim_C8_amended :
    (∀ (m : List (String × JVal)) fields optional r cs,
      TV.match_dict m fields optional = .ok r →
      r.children = some (.inr cs) → ∀ p ∈ cs, p.2.has_errors = true) ∧
    (∀ v e r cs, TV.match_list v e = .ok r →
      r.children = some (.inr cs) → ∀ p ∈ cs, p.2.has_errors = true) ∧
    (∀ v alts r cs, TV.matchv v (.union alts) = .ok r →
      r.children = some (.inr cs) → ∀ p ∈ cs, p.2.has_errors = true) ∧
    (∀ (m : List (String × JVal)) name req opt r,
      TV.matchv (.dict m) (.typeddict name req opt) = .ok r →
      ∃ cs rr, r.children = some (.inr cs) ∧ ("required", rr) ∈ cs) ∧
    (∀ (m : List (String × JVal)) item b r,
      TV.match_page (.dict m) item b = .ok r →
      pageErrors m (if b then pageFields else cursorFields) = [] →
      ∃ nested, r.children = some (.inl nested)) := by
  refine ⟨?_, ?_, ?_, ?_, ?_⟩
  · intro m fields optional r cs hr hcs
    simp only [TV.match_dict] at hr
    split at hr
    · simp at hr
    · rename_i csf hcsf
      injection hr with h
      subst h
      rw [mkResult_children] at hcs
      match csf, hcs with
      | [], hcs => simp [childNorm] at hcs
      | q :: qs, hcs =>
        simp only [childNorm] at hcs
        injection hcs with h2
        injection h2 with h3
        subst h3
        exact tvFields_fail _ _ hcsf
  · intro v e r cs hr hcs
    simp only [TV.match_list] at hr
    split at hr
    · simp at hr
    · rename_i elems hiter
      split at hr
      · simp at hr
      · rename_i rs hrs
        split at hr
        · injection hr with h
          subst h
          simp [childNorm] at hcs
        · rename_i fst rest hfil
          injection hr with h
          subst h
          rw [mkResult_children] at hcs
          simp only [childNorm] at hcs
          injection hcs with h2
          injection h2 with h3
          subst h3
          intro p hp
          simp only [List.mem_singleton] at hp
          rw [hp]
          have hmem : fst ∈ rs.filter (fun q => q.has_errors) := by
            rw [hfil]; exact List.mem_cons_self _ _
          exact (List.mem_filter.mp hmem).2
  · intro v alts r cs hr hcs
    simp only [TV.matchv] at hr
    exact tvUnionGo_fail alts [] (by simp) r hr cs hcs
  · intro m name req opt r hr
    simp only [TV.matchv] at hr
    split at hr
    · simp at hr
    · simp only [TV.match_typeddict] at hr
      split at hr
      · simp at hr
      · rename_i reqR hreq
        split at hr
        · injection hr with h
          subst h
          exact ⟨[("required", reqR)], reqR, by simp [childNorm], by simp⟩
        · split at hr
          · simp at hr
          · rename_i optR hopt
            injection hr with h
            subst h
            exact ⟨[("required", reqR), ("optional", optR)], reqR,
              by simp [childNorm], by simp⟩
  · intro m item b r hr hpe
    cases b <;>
      simp only [TV.match_page, reduceIte, Bool.false_eq_true, if_false, if_true] at hr <;>
      simp only [reduceIte, Bool.false_eq_true, if_false, if_true] at hpe <;>
      rw [hpe] at hr <;> simp only [List.isEmpty_nil, if_true] at hr
    all_goals
      (split at hr
       · simp at hr
       · rename_i items hget
         split at hr
         · simp at hr
         · rename_i nested hnested
           injection hr with h
           subst h
           exact ⟨nested, by simp [childNorm]⟩)

/-- C8, witness: the amended theorem applied to a concrete failing dict
match: the single retained child of the dict node is failing. -/
theorem claim_C8_witness :
    ∀ p ∈ [("a", Result.mk "dict" [Msg.missingRequiredKeys ["b"]] none true)],
      (p : String × Result).2.has_errors = true :=
  claim_C8_amended.1 [("a", JVal.dict [])] [("a", Ty.rawdict [("b", Ty.prim .int)])] false
    (Result.mk "dict" []
      (some (.inr [("a", Result.mk "dict" [Msg.missingRequiredKeys ["b"]] none true)]))
      true) _
    (by simp [TV.match_dict, TV.matchFields, TV.matchv, TV.match_primitive,
      isinstanceOf, mkResult, childNorm, computeHasErrors, dictGet, dictKeys,
      keysNotIn, Result.has_errors])
    (by simp [Result.children])

/-- C2, counterexample: the claim states that fields present in the mapping
but undeclared in the Record never by themselves cause errors, but
match_typeddict reports unrecognized keys: a mapping holding every
(matching) required field plus one extra key fails with an
unrecognized-keys error; the second conjunct shows no required field is
missing. -/
theorem claim_C2_cex :
    TV.matchv (JVal.dict [("a", JVal.int 1), ("extra", JVal.int 2)])
      (Ty.typeddict "T" [("a", Ty.prim .int)] []) =
      .ok (Result.mk "T" [Msg.unrecognizedKeys ["extra"]]
        (some (.inr [("required", Result.mk "dict" [] none false)])) true) ∧
    keysNotIn ["a"] ["a", "extra"] = [] := by
  constructor
  · simp [TV.matchv, TV.match_typeddict, TV.match_dict, TV.matchFields,
      TV.match_primitive, mkResult, childNorm, computeHasErrors, dictGet,
      dictKeys, keysNotIn, Result.has_errors]
  · simp [keysNotIn]

/-- C2, amended: for a raw field-mapping (match_dict) the claim holds as
stated: a mapping missing declared fields fails with one message naming
exactly the missing fields, and extra undeclared fields never cause errors
on their own; for a declared Record (match_typeddict) missing required
fields are still reported, inside the "required" child, naming exactly the
missing fields, but undeclared extra fields do cause an unrecognized-keys
error naming exactly the undeclared ones. -/
theorem claim_C2_amended :
    (∀ (m : List (String × JVal)) fields r,
      TV.match_dict m fields false = .ok r →
      keysNotIn (fields.map Prod.fst) (dictKeys m) ≠ [] →
      r.has_errors = true ∧
      r.error_messages =
        [Msg.missingRequiredKeys (keysNotIn (fields.map Prod.fst) (dictKeys m))] ∧
      (∀ k, k ∈ keysNotIn (fields.map Prod.fst) (dictKeys m) ↔
        (k ∈ fields.map Prod.fst ∧ k ∉ dictKeys m))) ∧
    (∀ (m : List (String × JVal)) fields,
      keysNotIn (fields.map Prod.fst) (dictKeys m) = [] →
      (∀ f ft fv, (f, ft) ∈ fields → dictGet m f = some fv →
        ∃ mr, TV.matchv fv ft = .ok mr ∧ mr.has_errors = false) →
      ∃ r, TV.match_dict m fields false = .ok r ∧ r.has_errors = false) ∧
    (∀ (m : List (String × JVal)) name req opt r,
      TV.matchv (.dict m) (.typeddict name req opt) = .ok r →
      keysNotIn (dictKeys m) ((req ++ opt).map Prod.fst) ≠ [] →
      r.has_errors = true ∧
      Msg.unrecognizedKeys (keysNotIn (dictKeys m) ((req ++ opt).map Prod.fst))
        ∈ r.error_messages ∧
      (∀ k, k ∈ keysNotIn (dictKeys m) ((req ++ opt).map Prod.fst) ↔
        (k ∈ dictKeys m ∧ k ∉ (req ++ opt).map Prod.fst))) ∧
    (∀ (m : List (String × JVal)) name req opt r,
      TV.matchv (.dict m) (.typeddict name req opt) = .ok r →
      keysNotIn (req.map Prod.fst) (dictKeys m) ≠ [] →
      r.has_errors = true ∧
      ∃ cs rr, r.children = some (.inr cs) ∧ ("required", rr) ∈ cs ∧
        rr.error_messages =
          [Msg.missingRequiredKeys (keysNotIn (req.map Prod.fst) (dictKeys m))]) := by
  refine ⟨?_, ?_, ?_, ?_⟩
  · intro m fields r hr hne
    obtain ⟨hmsg, herr⟩ := tvDict_missing hne r hr
    exact ⟨herr, hmsg, fun k => keysNotIn_mem_iff⟩
  · intro m fields hmiss H
    have hmf := tvFields_pass fields H
    refine ⟨mkResult "dict" [] (some (.inr [])), ?_, ?_⟩
    · simp only [TV.match_dict, hmf, hmiss]
      simp
    · rfl
  · intro m name req opt r hr hne
    simp only [TV.matchv] at hr
    split at hr
    · simp at hr
    · simp only [TV.match_typeddict] at hr
      have hie : (keysNotIn (dictKeys m) ((req ++ opt).map Prod.fst)).isEmpty = false := by
        cases hk : keysNotIn (dictKeys m) ((req ++ opt).map Prod.fst) with
        | nil => exact absurd hk hne
        | cons q qs => simp
      rw [hie] at hr
      split at hr
      · simp at hr
      · rename_i reqR hreq
        split at hr
        · injection hr with h
          subst h
          refine ⟨by simp [computeHasErrors], by simp, fun k => keysNotIn_mem_iff⟩
        · split at hr
          · simp at hr
          · rename_i optR hopt
            injection hr with h
            subst h
            refine ⟨by simp [computeHasErrors], by simp, fun k => keysNotIn_mem_iff⟩
  · intro m name req opt r hr hne
    simp only [TV.matchv] at hr
    split at hr
    · simp at hr
    · simp only [TV.match_typeddict] at hr
      split at hr
      · simp at hr
      · rename_i reqR hreq
        obtain ⟨hmsg, herr⟩ := tvDict_missing hne reqR hreq
        split at hr
        · injection hr with h
          subst h
          refine ⟨?_, [("required", reqR)], reqR, by simp [childNorm], by simp, hmsg⟩
          rw [mkResult_has_errors]
          simp [childNorm, computeHasErrors, herr]
        · split at hr
          · simp at hr
          · rename_i optR hopt
            injection hr with h
            subst h
            refine ⟨?_, [("required", reqR), ("optional", optR)], reqR,
              by simp [childNorm], by simp, hmsg⟩
            rw [mkResult_has_errors]
            simp [childNorm, computeHasErrors, herr]

/-- C2, witness: every part of the amended theorem exercised at concrete
inputs. -/
theorem claim_C2_witness :
    ((Result.mk "dict" [Msg.missingRequiredKeys ["b"]] none true).has_errors = true ∧
      (Result.mk "dict" [Msg.missingRequiredKeys ["b"]] none true).error_messages =
        [Msg.missingRequiredKeys (keysNotIn ["b"] ["a"])] ∧
      (∀ k, k ∈ keysNotIn ["b"] ["a"] ↔ (k ∈ ["b"] ∧ k ∉ ["a"]))) ∧
    (∃ r, TV.match_dict [("a", JVal.int 1), ("extra", JVal.int 2)]
        [("a", Ty.prim .int)] false = .ok r ∧ r.has_errors = false) := by
  constructor
  · have h1 := claim_C2_amended.1 [("a", JVal.int 1)] [("b", Ty.prim .int)]
      (Result.mk "dict" [Msg.missingRequiredKeys ["b"]] none true)
      (by simp [TV.match_dict, TV.matchFields, mkResult, childNorm,
        computeHasErrors, dictGet, dictKeys, keysNotIn])
      (by simp [keysNotIn, dictKeys])
    simpa [dictKeys] using h1
  · exact claim_C2_amended.2.1 [("a", JVal.int 1), ("extra", JVal.int 2)]
      [("a", Ty.prim .int)]
      (by simp [keysNotIn, dictKeys])
      (by intro f ft fv hf hget
          simp only [List.mem_singleton] at hf
          injection hf with h1 h2
          subst h1; subst h2
          simp [dictGet] at hget
          subst hget
          exact ⟨Result.mk "primitive" [] none false,
            by simp [TV.matchv, TV.match_primitive, mkResult, childNorm, computeHasErrors],
            rfl⟩)

/-- C4: a mapping checked against Page(item) or CursorPage(item) passes
exactly when its key set equals the fixed field set of that page kind and
its items field matches ListOf(item); extra keys produce an
unrecognized-keys error and absent fixed fields a missing-required-key
error, both possibly together; and whenever the field-set check fails the
returned node has no children, so matching does not descend into items and
no item-level errors are reported. -/
theorem claim_C4 :
    ∀ (b : Bool) (item : Ty) (m : List (String × JVal)),
    ((∃ r, TV.matchv (.dict m) (if b then .page item else .cursorPage item) = .ok r ∧
        r.has_errors = false) ↔
      ((∀ k, k ∈ dictKeys m ↔ k ∈ (if b then pageFields else cursorFields)) ∧
       ∃ it mr, dictGet m "items" = some it ∧
         TV.matchv it (.listOf item) = .ok mr ∧ mr.has_errors = false)) ∧
    (pageErrors m (if b then pageFields else cursorFields) ≠ [] →
      ∃ r, TV.matchv (.dict m) (if b then .page item else .cursorPage item) = .ok r ∧
        r.has_errors = true ∧ r.children = none ∧
        r.error_messages = pageErrors m (if b then pageFields else cursorFields)) ∧
    (keysNotIn (dictKeys m) (if b then pageFields else cursorFields) ≠ [] →
      Msg.unrecognizedKeys (keysNotIn (dictKeys m) (if b then pageFields else cursorFields))
        ∈ pageErrors m (if b then pageFields else cursorFields)) ∧
    (keysNotIn (if b then pageFields else cursorFields) (dictKeys m) ≠ [] →
      Msg.missingRequiredKey (keysNotIn (if b then pageFields else cursorFields) (dictKeys m))
        ∈ pageErrors m (if b then pageFields else cursorFields)) := by
  intro b item m
  have hie : ∀ l : List Msg, l ≠ [] → l.isEmpty = false := by
    intro l hl
    cases l with
    | nil => exact absurd rfl hl
    | cons q qs => simp
  have hieK : ∀ l : List String, l ≠ [] → l.isEmpty = false := by
    intro l hl
    cases l with
    | nil => exact absurd rfl hl
    | cons q qs => simp
  refine ⟨?_, ?_, ?_, ?_⟩
  · constructor
    · rintro ⟨r, hr, hre⟩
      rw [tvMatchv_page] at hr
      rcases tvPage_run_inv hr with ⟨hpe, it, nested, hget, hnested, hreq⟩ | ⟨hne, hreq⟩
      · subst hreq
        refine ⟨pageErrors_nil_keyset.mp hpe, it, nested, hget, ?_, ?_⟩
        · simp only [TV.matchv]
          exact hnested
        · rw [mkResult_has_errors] at hre
          simpa [childNorm, computeHasErrors] using hre
      · subst hreq
        exfalso
        rw [mkResult_has_errors] at hre
        simp [childNorm, computeHasErrors, hie _ hne] at hre
    · rintro ⟨hkeys, it, mr, hget, hmr, hmre⟩
      have hpe := pageErrors_nil_keyset.mpr hkeys
      have hmr2 : TV.match_list it item = .ok mr := by
        simpa [TV.matchv] using hmr
      refine ⟨_, by rw [tvMatchv_page]; exact tvPage_run_pass hpe hget hmr2, ?_⟩
      simp [mkResult_has_errors, childNorm, computeHasErrors, hmre]
  · intro hne
    refine ⟨_, by rw [tvMatchv_page]; exact tvPage_run_fail hne, ?_, ?_, ?_⟩
    · rw [mkResult_has_errors]
      simp [childNorm, computeHasErrors, hie _ hne]
    · rw [mkResult_children]
      simp [childNorm]
    · rw [mkResult_error_messages]
  · intro hne
    simp [pageErrors, hieK _ hne]
  · intro hne
    simp [pageErrors, hieK _ hne]

/-- C4, witness: a Page value missing its total field fails with the
missing-required-key error, no children, and no item-level errors, via the
theorem applied at that concrete mapping. -/
theorem claim_C4_witness :
    ∃ r, TV.matchv
        (.dict [("href", JVal.str "h"), ("items", JVal.list [JVal.str "a"]),
          ("limit", JVal.int 1), ("next", JVal.null), ("offset", JVal.int 0),
          ("previous", JVal.null)])
        (.page (Ty.prim .str)) = .ok r ∧
      r.has_errors = true ∧ r.children = none ∧
      r.error_messages = pageErrors
        [("href", JVal.str "h"), ("items", JVal.list [JVal.str "a"]),
          ("limit", JVal.int 1), ("next", JVal.null), ("offset", JVal.int 0),
          ("previous", JVal.null)] pageFields :=
  (claim_C4 true (Ty.prim .str)
    [("href", JVal.str "h"), ("items", JVal.list [JVal.str "a"]),
      ("limit", JVal.int 1), ("next", JVal.null), ("offset", JVal.int 0),
      ("previous", JVal.null)]).2.1
    (by simp [pageErrors, keysNotIn, dictKeys, pageFields])

/-- The per-element results of _match_list line up with the elements: the
first retained failure is the result of the first failing element. -/
lemma tcElems_first {e : Ty} :
    ∀ xs rs, TC.matchElems e xs = .ok rs →
      rs.length = xs.length ∧
      ∀ fst rest, rs.filter (fun r => r.has_errors) = fst :: rest →
        ∃ x, (xs.zip rs).find? (fun p => p.2.has_errors) = some (x, fst) ∧
          TC.typecheck x e = .ok fst := by
  intro xs
  induction xs with
  | nil =>
    intro rs hrs
    simp only [TC.matchElems] at hrs
    injection hrs with h
    subst h
    exact ⟨rfl, by intro fst rest hfil; simp at hfil⟩
  | cons x xs ih =>
    intro rs hrs
    simp only [TC.matchElems] at hrs
    split at hrs
    · simp at hrs
    · rename_i rr hmv
      split at hrs
      · simp at hrs
      · rename_i tlrs htl
        injection hrs with h
        subst h
        obtain ⟨hlen, hfind⟩ := ih tlrs htl
        refine ⟨by simp [hlen], ?_⟩
        intro fst rest hfil
        by_cases he : rr.has_errors
        · simp only [List.filter_cons, he, if_true] at hfil
          injection hfil with h1 h2
          subst h1
          exact ⟨x, by
            rw [List.zip_cons_cons, List.find?_cons_of_pos _ (by simpa using he)], hmv⟩
        · simp only [List.filter_cons, he, if_false] at hfil
          obtain ⟨x2, hx2, hok⟩ := hfind fst rest hfil
          exact ⟨x2, by
            rw [List.zip_cons_cons,
              List.find?_cons_of_neg _ (by simpa using he)]
            exact hx2, hok⟩

/-- C5: for ListOf(E) under the checker of src/tests/typechecker.py: a
non-list value yields the single "not a list" error; a list whose element
results contain K failures (0 < K <= N) yields one error counting K of N
and the single "first error" child, which is exactly the match result of
the first failing element; a list with no failing element passes. -/
theorem claim_C5 :
    (∀ v e, (∀ xs, v ≠ JVal.list xs) →
      TC.typecheck v (.listOf e) = .ok (Result.mk "list" [Msg.notAList] none true)) ∧
    (∀ e xs rs, TC.matchElems e xs = .ok rs →
      (rs.filter (fun r => r.has_errors) = [] →
        TC.typecheck (.list xs) (.listOf e) = .ok (Result.mk "list" [] none false)) ∧
      (∀ fst rest, rs.filter (fun r => r.has_errors) = fst :: rest →
        TC.typecheck (.list xs) (.listOf e) =
          .ok (Result.mk "list"
            [Msg.elementsDontMatch (rs.filter (fun r => r.has_errors)).length xs.length]
            (some (.inr [("first error", fst)])) true) ∧
        ∃ x, (xs.zip rs).find? (fun p => p.2.has_errors) = some (x, fst) ∧
          TC.typecheck x e = .ok fst)) := by
  constructor
  · intro v e hv
    cases v
    case list xs => exact absurd rfl (hv xs)
    all_goals
      (simp only [TC.typecheck, TC.match_list]
       simp [mkResult, childNorm, computeHasErrors])
  · intro e xs rs hrs
    obtain ⟨hlen, hfind⟩ := tcElems_first xs rs hrs
    constructor
    · intro hfil
      simp only [TC.typecheck, TC.match_list, hrs, hfil]
      simp [mkResult, childNorm, computeHasErrors]
    · intro fst rest hfil
      refine ⟨?_, hfind fst rest hfil⟩
      simp only [TC.typecheck, TC.match_list, hrs, hfil]
      simp [mkResult, childNorm, computeHasErrors]

/-- C5, witness: the theorem applied to a concrete list with two failing
elements out of three; the first failure is surfaced with its own match
result. -/
theorem claim_C5_witness :
    TC.typecheck (.list [JVal.str "a", JVal.int 1, JVal.str "b"]) (.listOf (Ty.prim .int)) =
      .ok (Result.mk "list"
        [Msg.elementsDontMatch 2 3]
        (some (.inr [("first error",
          Result.mk "primitive" [Msg.primitiveMismatch (JVal.str "a") .int] none true)]))
        true) ∧
    TC.typecheck (JVal.str "nope") (.listOf (Ty.prim .int)) =
      .ok (Result.mk "list" [Msg.notAList] none true) := by
  constructor
  · have h := ((claim_C5.2 (Ty.prim .int) [JVal.str "a", JVal.int 1, JVal.str "b"]
      [Result.mk "primitive" [Msg.primitiveMismatch (JVal.str "a") .int] none true,
       Result.mk "primitive" [] none false,
       Result.mk "primitive" [Msg.primitiveMismatch (JVal.str "b") .int] none true]
      (by simp [TC.matchElems, TC.typecheck, TC.match_primitive, isinstanceOf,
        mkResult, childNorm, computeHasErrors])).2
      (Result.mk "primitive" [Msg.primitiveMismatch (JVal.str "a") .int] none true)
      [Result.mk "primitive" [Msg.primitiveMismatch (JVal.str "b") .int] none true]
      (by simp [Result.has_errors])).1
    simpa [Result.has_errors] using h
  · exact claim_C5.1 (JVal.str "nope") (Ty.prim .int) (by intro xs h; cases h)

/-- Inserting a fresh key appends. -/
lemma pyInsert_fresh {l : List (String × Result)} {k : String} {r : Result}
    (h : k ∉ l.map Prod.fst) : pyInsert l k r = l ++ [(k, r)] := by
  induction l with
  | nil => simp [pyInsert]
  | cons hd tl ih =>
    obtain ⟨k2, r2⟩ := hd
    simp only [List.map_cons, List.mem_cons] at h
    push_neg at h
    simp only [pyInsert]
    rw [ih h.2, if_neg (Ne.symm h.1)]
    simp

/-- A successful union match passes exactly when some alternative passes. -/
lemma tcUnionGo_pass_iff {v : JVal} :
    ∀ alts (acc : List (String × Result)) r,
      TC.match_union v alts acc = .ok r →
      (r.has_errors = false ↔
        ∃ a ∈ alts, ∃ m, TC.typecheck v a = .ok m ∧ m.has_errors = false) := by
  intro alts
  induction alts with
  | nil =>
    intro acc r hr
    simp only [TC.match_union] at hr
    injection hr with h
    subst h
    rw [mkResult_has_errors]
    simp [computeHasErrors]
  | cons a rest ih =>
    intro acc r hr
    simp only [TC.match_union] at hr
    split at hr
    · simp at hr
    · rename_i mr hmv
      by_cases he : mr.has_errors
      · simp only [he, if_true] at hr
        rw [ih _ r hr]
        constructor
        · rintro ⟨b, hb, m, hm, hme⟩
          exact ⟨b, List.mem_cons_of_mem _ hb, m, hm, hme⟩
        · rintro ⟨b, hb, m, hm, hme⟩
          rcases List.mem_cons.mp hb with hb2 | hb2
          · subst hb2
            rw [hmv] at hm
            injection hm with h2
            subst h2
            exact absurd he (by simp [hme])
          · exact ⟨b, hb2, m, hm, hme⟩
      · simp only [he, if_false] at hr
        injection hr with h
        subst h
        rw [mkResult_has_errors]
        simp only [childNorm, computeHasErrors]
        constructor
        · intro _
          exact ⟨a, List.mem_cons_self _ _, mr, hmv, by simpa using he⟩
        · intro _
          simp
  
/-- A failed union match reports it and maps each alternative's display
name to its failing result, provided the display names do not collide
(Python dict assignment overwrites colliding names). -/
lemma tcUnionGo_children {v : JVal} :
    ∀ alts (acc : List (String × Result)) r,
      TC.match_union v alts acc = .ok r → r.has_errors = true →
      (acc.map Prod.fst ++ alts.map tyName).Nodup →
      (acc ≠ [] ∨ alts ≠ []) →
      r.error_messages = [Msg.noneOfUnionMatched] ∧
      ∃ cs, r.children = some (.inr cs) ∧ (∀ p ∈ acc, p ∈ cs) ∧
        (∀ a ∈ alts, ∃ m, TC.typecheck v a = .ok m ∧ m.has_errors = true ∧
          (tyName a, m) ∈ cs) := by
  intro alts
  induction alts with
  | nil =>
    intro acc r hr hre hnd hne
    simp only [TC.match_union] at hr
    injection hr with h
    subst h
    refine ⟨by simp, ?_⟩
    match acc, hne with
    | [], hne => simp at hne
    | q :: qs, hne =>
      refine ⟨q :: qs, by simp [childNorm], fun p hp => hp, by simp⟩
  | cons a rest ih =>
    intro acc r hr hre hnd hne
    simp only [TC.match_union] at hr
    split at hr
    · simp at hr
    · rename_i mr hmv
      by_cases he : mr.has_errors
      · simp only [he, if_true] at hr
        have hfresh : tyName a ∉ acc.map Prod.fst := by
          intro hmem
          rcases List.nodup_append.mp hnd with ⟨h1, h2, h3⟩
          exact h3 hmem (by simp)
        have hins := @pyInsert_fresh acc (tyName a) mr hfresh
        have hnd2 : ((pyInsert acc (tyName a) mr).map Prod.fst ++
            rest.map tyName).Nodup := by
          rw [hins]
          simp only [List.map_append, List.map_cons, List.map_nil]
          simpa [List.append_assoc] using hnd
        obtain ⟨hmsg, cs, hch, hacc, halts⟩ :=
          ih (pyInsert acc (tyName a) mr) r hr hre hnd2
            (Or.inl (by rw [hins]; simp))
        refine ⟨hmsg, cs, hch, ?_, ?_⟩
        · intro p hp
          exact hacc p (by rw [hins]; exact List.mem_append_left _ hp)
        · intro b hb
          rcases List.mem_cons.mp hb with hb2 | hb2
          · subst hb2
            exact ⟨mr, hmv, he, hacc _ (by rw [hins]; simp)⟩
          · exact halts b hb2
      · simp only [he, if_false] at hr
        injection hr with h
        subst h
        rw [mkResult_has_errors] at hre
        simp [childNorm, computeHasErrors] at hre

/-- C6, counterexample: the claim's equivalence fails when an alternative
raises before a matching one is reached: 3 against Union[T, int] (T a
record) raises AttributeError while 3 matches the int alternative, so
"match(V, U) has no errors" (false: there is no result at all) differs
from "some alternative matches" (true). -/
theorem claim_C6_cex :
    ¬ ((∃ r, TC.typecheck (JVal.int 3)
          (.union [Ty.typeddict "T" [("a", Ty.prim .int)] [], Ty.prim .int]) = .ok r ∧
        r.has_errors = false) ↔
       (∃ a ∈ [Ty.typeddict "T" [("a", Ty.prim .int)] [], Ty.prim .int],
        ∃ m, TC.typecheck (JVal.int 3) a = .ok m ∧ m.has_errors = false)) := by
  intro h
  have herr : TC.typecheck (JVal.int 3)
      (.union [Ty.typeddict "T" [("a", Ty.prim .int)] [], Ty.prim .int]) =
      .error .attributeError := by
    simp [TC.typecheck, TC.match_union]
  obtain ⟨r, hr, _⟩ := h.mpr ⟨Ty.prim .int, by simp,
    Result.mk "primitive" [] none false,
    by simp [TC.typecheck, TC.match_primitive, isinstanceOf, mkResult,
      childNorm, computeHasErrors], rfl⟩
  rw [herr] at hr
  exact Except.noConfusion hr

/-- C6, amended: whenever the union match returns a result (no alternative
raised before the loop finished), it has no errors exactly when some
alternative matches without errors; matching stops at the first successful
alternative; and on total failure the node carries the
no-union-alternative-matched message with children mapping each
alternative's display name to its failing result (names assumed distinct,
since Python dict assignment overwrites colliding display names). -/
theorem claim_C6_amended :
    (∀ v alts r, TC.typecheck v (.union alts) = .ok r →
      (r.has_errors = false ↔
        ∃ a ∈ alts, ∃ m, TC.typecheck v a = .ok m ∧ m.has_errors = false)) ∧
    (∀ v a rest m, TC.typecheck v a = .ok m → m.has_errors = false →
      TC.typecheck v (.union (a :: rest)) = .ok (Result.mk "union" [] none false)) ∧
    (∀ v alts r, TC.typecheck v (.union alts) = .ok r → r.has_errors = true →
      alts ≠ [] → (alts.map tyName).Nodup →
      r.error_messages = [Msg.noneOfUnionMatched] ∧
      ∃ cs, r.children = some (.inr cs) ∧
        ∀ a ∈ alts, ∃ m, TC.typecheck v a = .ok m ∧ m.has_errors = true ∧
          (tyName a, m) ∈ cs) := by
  refine ⟨?_, ?_, ?_⟩
  · intro v alts r hr
    simp only [TC.typecheck] at hr
    exact tcUnionGo_pass_iff alts [] r hr
  · intro v a rest m hm hme
    simp only [TC.typecheck, TC.match_union, hm, hme, if_false]
    rfl
  · intro v alts r hr hre hne hnd
    simp only [TC.typecheck] at hr
    obtain ⟨hmsg, cs, hch, _, halts⟩ :=
      tcUnionGo_children alts [] r hr hre (by simpa using hnd) (Or.inr hne)
    exact ⟨hmsg, cs, hch, halts⟩

/-- C6, witness: the amended theorem applied at concrete inputs: a value
passing through the second alternative, and a value failing every
alternative with both children recorded. -/
theorem claim_C6_witness :
    ((Result.mk "union" [] none false).has_errors = false ↔
      ∃ a ∈ [Ty.prim .int, Ty.prim .str], ∃ m,
        TC.typecheck (JVal.str "x") a = .ok m ∧ m.has_errors = false) ∧
    ((Result.mk "union" [Msg.noneOfUnionMatched]
        (some (.inr [("int", Result.mk "primitive" [Msg.primitiveMismatch JVal.null .int] none true),
                     ("str", Result.mk "primitive" [Msg.primitiveMismatch JVal.null .str] none true)]))
        true).error_messages = [Msg.noneOfUnionMatched] ∧
      ∃ cs, (Result.mk "union" [Msg.noneOfUnionMatched]
        (some (.inr [("int", Result.mk "primitive" [Msg.primitiveMismatch JVal.null .int] none true),
                     ("str", Result.mk "primitive" [Msg.primitiveMismatch JVal.null .str] none true)]))
        true).children = some (.inr cs) ∧
        ∀ a ∈ [Ty.prim .int, Ty.prim .str], ∃ m,
          TC.typecheck JVal.null a = .ok m ∧ m.has_errors = true ∧
          (tyName a, m) ∈ cs) := by
  constructor
  · exact claim_C6_amended.1 (JVal.str "x") [Ty.prim .int, Ty.prim .str] _
      (by simp [TC.typecheck, TC.match_union, TC.match_primitive, isinstanceOf,
        mkResult, childNorm, computeHasErrors, Result.has_errors, pyInsert, tyName])
  · exact claim_C6_amended.2.2 JVal.null [Ty.prim .int, Ty.prim .str] _
      (by simp [TC.typecheck, TC.match_union, TC.match_primitive, isinstanceOf,
        mkResult, childNorm, computeHasErrors, Result.has_errors, pyInsert, tyName])
      (by simp [Result.has_errors])
      (by simp)
      (by simp [tyName])
